import Mathlib

/-!
Verification of the byte-blaster EMWIN/Quick-Block-Transfer client.

This file is a shallow embedding, in Lean 4, of the parts of the repository
that the verified properties are about:

* `src/byte_blaster/protocol/models.py` — `QuickBlockTransferSegment`
  (the completion key) and `ByteBlasterServerList` (defaults, parsing).
* `src/byte_blaster/file_manager.py` — `FileAssembler` (segment grouping,
  completion detection, duplicate suppression).
* `src/byteblaster/protocol/decoder.py` — `ProtocolDecoder`, the stream
  state machine (states RESYNC .. VALIDATE), header parsing, checksum and
  compression validation, and the `feed` entry point.
* `src/byteblaster/client.py` — the protocol-error handler
  (`ByteBlasterClient.on_protocol_error`) and the watchdog exception count.

Python `bytes` values are embedded as `List Nat` (each element a byte value),
Python `str` values as `List Char`.  Machine integers are unbounded in Python,
so `Int`/`Nat` are used directly.  Stateful code is embedded as explicit
state-passing functions.  Wall-clock metadata (`received_at`, and the
`datetime.now` fallback used when a header date fails to parse) is excluded
from the embedded records: it is not a function of the input stream.

The helper module `byteblaster/utils/crypto.py` (the `XorBuffer`,
`calculate_checksum`, `verify_checksum`, `decompress_zlib` helpers) is not
part of the provided sources; those definitions are modelled from the spec
(§2 "XOR codec & ring buffer", "Checksum & zlib helpers") and from the
repository's own tests (`tests/utils/test_crypto.py`), which pin their
behaviour.  zlib inflation itself (`zlib.decompress`) is external C code and
is modelled as an oracle parameter `Inflate`.
-/

/-! ## Python timestamps (UTC, second precision)

The decoder parses header dates with `%m/%d/%Y %I:%M:%S %p`, which yields
second precision (no microseconds), and attaches UTC.  `isoformat()` of such
a value renders `YYYY-MM-DDTHH:MM:SS+00:00`. -/

/-- A timezone-aware UTC `datetime` value at second precision, as produced by
parsing a QBT header date. -/
structure PyDateTime where
  year : Nat
  month : Nat
  day : Nat
  hour : Nat
  minute : Nat
  second : Nat
deriving DecidableEq, Repr

/-- Two-digit zero-padded decimal rendering (`%02d`). -/
def pad2 (n : Nat) : List Char :=
  [Char.ofNat (48 + n / 10), Char.ofNat (48 + n % 10)]

/-- Four-digit zero-padded decimal rendering (`%04d`). -/
def pad4 (n : Nat) : List Char :=
  [Char.ofNat (48 + n / 1000), Char.ofNat (48 + n / 100 % 10),
   Char.ofNat (48 + n / 10 % 10), Char.ofNat (48 + n % 10)]

/-- Python `datetime.isoformat()` for a UTC value at second precision:
`YYYY-MM-DDTHH:MM:SS+00:00`. -/
def PyDateTime.isoformat (t : PyDateTime) : List Char :=
  pad4 t.year ++ '-' :: pad2 t.month ++ '-' :: pad2 t.day ++
    'T' :: pad2 t.hour ++ ':' :: pad2 t.minute ++ ':' :: pad2 t.second ++
    "+00:00".toList

/-- Fields of a `PyDateTime` are in rendering range: the calendar fields fit
in two digits and the year in four.  (Every calendar date satisfies this;
it is what `pad2`/`pad4` injectivity needs.) -/
def PyDateTime.InRange (t : PyDateTime) : Prop :=
  t.year < 10000 ∧ t.month < 100 ∧ t.day < 100 ∧
    t.hour < 100 ∧ t.minute < 100 ∧ t.second < 100

instance (t : PyDateTime) : Decidable t.InRange := by
  unfold PyDateTime.InRange; infer_instance

/-! ## `QuickBlockTransferSegment` (src/byte_blaster/protocol/models.py)

Embedded fields are those the file assembler reads; `received_at` is
wall-clock metadata and is omitted (see the header comment). -/

/-- A QBT data block, as defined in `byte_blaster/protocol/models.py`. -/
structure QuickBlockTransferSegment where
  filename : List Char
  block_number : Int
  total_blocks : Int
  content : List Nat
  checksum : Int
  length : Int
  version : Int
  timestamp : PyDateTime
  header : List Char
  source : List Char
deriving DecidableEq, Repr

instance : Inhabited QuickBlockTransferSegment :=
  ⟨⟨[], 0, 0, [], 0, 0, 1, ⟨0, 0, 0, 0, 0, 0⟩, [], []⟩⟩

/-- `QuickBlockTransferSegment.key`:
`f"{self.filename}_{self.timestamp.isoformat()}"`. -/
def QuickBlockTransferSegment.key (s : QuickBlockTransferSegment) : List Char :=
  s.filename ++ '_' :: s.timestamp.isoformat

/-! ## `FileAssembler` (src/byte_blaster/file_manager.py) -/

/-- `CompletedFile` — a fully reconstructed file (`file_manager.py`). -/
structure CompletedFile where
  filename : List Char
  data : List Nat
deriving DecidableEq, Repr

/-- Find a key in an insertion-ordered dictionary (Python `dict` lookup). -/
def dictFind (k : List Char) :
    List (List Char × List QuickBlockTransferSegment) →
      Option (List QuickBlockTransferSegment)
  | [] => none
  | (k', v) :: rest => if k' = k then some v else dictFind k rest

/-- Set a key in an insertion-ordered dictionary: update in place if present,
append at the end otherwise (Python `dict` assignment). -/
def dictSet (k : List Char) (v : List QuickBlockTransferSegment) :
    List (List Char × List QuickBlockTransferSegment) →
      List (List Char × List QuickBlockTransferSegment)
  | [] => [(k, v)]
  | (k', v') :: rest =>
      if k' = k then (k, v) :: rest else (k', v') :: dictSet k v rest

/-- Delete a key from an insertion-ordered dictionary (Python `del d[k]`). -/
def dictErase (k : List Char) :
    List (List Char × List QuickBlockTransferSegment) →
      List (List Char × List QuickBlockTransferSegment)
  | [] => []
  | (k', v') :: rest =>
      if k' = k then rest else (k', v') :: dictErase k rest

/-- Append on a `collections.deque` with `maxlen = cap`: the new element goes
on the right and the oldest elements are discarded from the left so that at
most `cap` remain. -/
def dequeAppend (cap : Nat) (q : List (List Char)) (k : List Char) :
    List (List Char) :=
  let q' := q ++ [k]
  if q'.length ≤ cap then q' else q'.drop (q'.length - cap)

/-- State of a `FileAssembler`: `file_segments` (a `dict` from completion key
to the segments received so far, in arrival order) and `_recently_completed`
(a bounded deque of completed keys, oldest first). -/
structure AssemblerState where
  file_segments : List (List Char × List QuickBlockTransferSegment)
  recently_completed : List (List Char)
  cache_size : Nat
deriving DecidableEq

/-- Sorting a bucket by block number (`segments.sort(key=lambda s:
s.block_number)`; Python's sort is a stable ascending sort). -/
def sortSegments (l : List QuickBlockTransferSegment) :
    List QuickBlockTransferSegment :=
  l.mergeSort (fun a b => a.block_number ≤ b.block_number)

/-- `FileAssembler._reconstruct_and_notify`: sort the bucket by block number,
concatenate content, take the filename from the first sorted segment, emit the
`CompletedFile`, record the key in the duplicate cache, drop the bucket.
(The `segments[0]` subscript cannot fail: the bucket passed in is nonempty;
`headD` with a default is used for totality.) -/
def reconstructAndNotify (st : AssemblerState) (file_key : List Char)
    (segments : List QuickBlockTransferSegment) :
    AssemblerState × List CompletedFile :=
  let sorted := sortSegments segments
  let complete_data := (sorted.map (fun s => s.content)).flatten
  let filename := (sorted.headD default).filename
  ({ st with
      file_segments := dictErase file_key st.file_segments,
      recently_completed :=
        dequeAppend st.cache_size st.recently_completed file_key },
   [⟨filename, complete_data⟩])

/-- `FileAssembler.handle_segment`: duplicate check, `FILLFILE.TXT` check,
append to the bucket for the segment's key, and reassemble when the bucket
size equals the segment's `total_blocks`. -/
def handle_segment (st : AssemblerState) (segment : QuickBlockTransferSegment) :
    AssemblerState × List CompletedFile :=
  let file_key := segment.key
  if file_key ∈ st.recently_completed then (st, [])
  else if segment.filename = "FILLFILE.TXT".toList then (st, [])
  else
    let bucket := (dictFind file_key st.file_segments).getD []
    let segments := bucket ++ [segment]
    let st1 := { st with file_segments := dictSet file_key segments st.file_segments }
    if (segments.length : Int) = segment.total_blocks then
      reconstructAndNotify st1 file_key segments
    else (st1, [])

/-! ## `ByteBlasterServerList` (src/byte_blaster/protocol/models.py) -/

/-- Python whitespace for `str.strip()` / `int()` trimming (ASCII range). -/
def isPySpace (c : Char) : Bool :=
  c == ' ' || c == '\t' || c == '\n' || c == '\r' ||
    c == Char.ofNat 11 || c == Char.ofNat 12

/-- Strip leading and trailing whitespace (Python `str.strip()`). -/
def stripPy (s : List Char) : List Char :=
  ((s.dropWhile isPySpace).reverse.dropWhile isPySpace).reverse

/-- Decimal digit string to `Nat` (value of a nonempty digit run). -/
def digitsToNat (l : List Char) : Nat :=
  l.foldl (fun a c => 10 * a + (c.toNat - 48)) 0

/-- Python `int(s)` on the port substring: strip whitespace, allow one
optional sign, then one or more decimal digits; anything else raises
`ValueError` (`none` here). -/
def parsePyInt (s : List Char) : Option Int :=
  let t := stripPy s
  match t with
  | '-' :: ds =>
      if ds ≠ [] ∧ ds.all Char.isDigit then some (-(digitsToNat ds : Int)) else none
  | '+' :: ds =>
      if ds ≠ [] ∧ ds.all Char.isDigit then some ((digitsToNat ds : Int)) else none
  | ds =>
      if ds ≠ [] ∧ ds.all Char.isDigit then some ((digitsToNat ds : Int)) else none

/-- Split off the part after the last `':'` (Python `s.rsplit(":", 1)` when
`":" in s`): returns `(host, port_str)`. -/
def rsplitColon (s : List Char) : List Char × List Char :=
  let afterRev := s.reverse.takeWhile (fun c => c ≠ ':')
  (s.take (s.length - afterRev.length - 1), afterRev.reverse)

/-- `ByteBlasterServerList.parse_server`: parse `"host:port"`; `none` stands
for the `ValueError` raised on a missing colon, a non-integer port, or a port
outside `1..65535`. -/
def parse_server (s : List Char) : Option (List Char × Int) :=
  if ':' ∈ s then
    let hp := rsplitColon s
    match parsePyInt hp.2 with
    | none => none
    | some port =>
        if port ≤ 0 ∨ 65535 < port then none else some (hp.1, port)
  else none

/-- `ByteBlasterServerList.DEFAULT_SERVERS`. -/
def DEFAULT_SERVERS : List (List Char) :=
  ["emwin.weathermessage.com:2211".toList,
   "master.weathermessage.com:2211".toList,
   "emwin.interweather.net:1000".toList,
   "wxmesg.upstateweather.com:2211".toList]

/-- The parsed default server pool (each entry of `DEFAULT_SERVERS` parses;
see `DEFAULT_SERVERS_parse_ok`). -/
def defaultServersParsed : List (List Char × Int) :=
  DEFAULT_SERVERS.filterMap parse_server

/-- Every built-in default server string parses, so `defaultServersParsed`
is exactly the `[self.parse_server(server) for server in DEFAULT_SERVERS]`
comprehension of `__post_init__` (which would raise on a failure). -/
theorem DEFAULT_SERVERS_parse_ok :
    DEFAULT_SERVERS.map parse_server = defaultServersParsed.map some := by
  decide

/-- A ByteBlaster server list: regular and satellite `(host, port)` pools.
(`received_at` is wall-time metadata and is omitted.) -/
structure ByteBlasterServerList where
  servers : List (List Char × Int)
  sat_servers : List (List Char × Int)
deriving DecidableEq, Repr

/-- Construction of a `ByteBlasterServerList` including `__post_init__`:
an empty regular list is replaced by the built-in defaults, an empty
satellite list by the (empty) default satellite list. -/
def makeServerList (servers sat_servers : List (List Char × Int)) :
    ByteBlasterServerList :=
  { servers := if servers = [] then defaultServersParsed else servers,
    sat_servers := if sat_servers = [] then [] else sat_servers }

/-- Index of the first occurrence of `pat` as a contiguous substring. -/
def subIdx {α : Type} [BEq α] (pat : List α) : List α → Option Nat
  | [] => if pat.isEmpty then some 0 else none
  | x :: xs =>
      if pat.isPrefixOf (x :: xs) then some 0
      else (subIdx pat xs).map (· + 1)

/-- Split a string on a separator character (Python `s.split("|")`). -/
def splitOnChar (c : Char) : List Char → List (List Char)
  | [] => [[]]
  | x :: xs =>
      match splitOnChar c xs with
      | [] => [[x]]
      | r :: rs => if x == c then [] :: r :: rs else (x :: r) :: rs

/-- Sequence a list of parses, failing if any fails (the all-at-once list
comprehension `[cls.parse_server(server) for server in server_entries]`). -/
def allParsed : List (List Char) → Option (List (List Char × Int))
  | [] => some []
  | e :: es =>
      match parse_server e, allParsed es with
      | some v, some vs => some (v :: vs)
      | _, _ => none

/-- `ByteBlasterServerList.from_server_list_frame`.  Content starting with
`"/ServerList/"` takes the simple-format branch: drop the prefix, cut at the
first `"\ServerList\"` marker if present, split on `'|'`, strip entries and
drop empty ones, then parse them all — falling back, when any entry fails, to
keeping just the entries that parse.  Content without that prefix cannot
match `SERVER_LIST_REGEX` either (the pattern is anchored on the same literal
prefix), so the source raises `ValueError`: `none` here. -/
def from_server_list_frame (content : List Char) :
    Option ByteBlasterServerList :=
  if ("/ServerList/".toList).isPrefixOf content then
    let part0 := content.drop 12
    let part :=
      match subIdx ("\\ServerList\\".toList) part0 with
      | some j => part0.take j
      | none => part0
    let entries :=
      ((splitOnChar '|' part).map stripPy).filter (fun e => e ≠ [])
    let servers :=
      match allParsed entries with
      | some l => l
      | none => entries.filterMap parse_server
    some (makeServerList servers [])
  else none

/-! ## Helper lemmas: injectivity of the ISO-8601 rendering -/

/-- Decimal digit characters are distinct. -/
theorem charDigit_inj :
    ∀ a, a < 10 → ∀ b, b < 10 →
      Char.ofNat (48 + a) = Char.ofNat (48 + b) → a = b := by
  decide

theorem pad2_inj {a b : Nat} (ha : a < 100) (hb : b < 100)
    (h : pad2 a = pad2 b) : a = b := by
  simp only [pad2, List.cons.injEq, and_true] at h
  obtain ⟨h1, h2⟩ := h
  have e1 := charDigit_inj (a / 10) (by omega) (b / 10) (by omega) h1
  have e2 := charDigit_inj (a % 10) (by omega) (b % 10) (by omega) h2
  omega

theorem pad4_inj {a b : Nat} (ha : a < 10000) (hb : b < 10000)
    (h : pad4 a = pad4 b) : a = b := by
  simp only [pad4, List.cons.injEq, and_true] at h
  obtain ⟨h1, h2, h3, h4⟩ := h
  have e1 := charDigit_inj (a / 1000) (by omega) (b / 1000) (by omega) h1
  have e2 := charDigit_inj (a / 100 % 10) (by omega) (b / 100 % 10) (by omega) h2
  have e3 := charDigit_inj (a / 10 % 10) (by omega) (b / 10 % 10) (by omega) h3
  have e4 := charDigit_inj (a % 10) (by omega) (b % 10) (by omega) h4
  omega

theorem pad2_length (n : Nat) : (pad2 n).length = 2 := rfl

theorem pad4_length (n : Nat) : (pad4 n).length = 4 := rfl

theorem isoformat_length (t : PyDateTime) : t.isoformat.length = 25 := by
  simp [PyDateTime.isoformat, pad2_length, pad4_length]

theorem isoformat_inj {t₁ t₂ : PyDateTime}
    (h1 : t₁.InRange) (h2 : t₂.InRange)
    (h : t₁.isoformat = t₂.isoformat) : t₁ = t₂ := by
  obtain ⟨hy1, hmo1, hd1, hh1, hmi1, hs1⟩ := h1
  obtain ⟨hy2, hmo2, hd2, hh2, hmi2, hs2⟩ := h2
  unfold PyDateTime.isoformat at h
  have e0 := List.append_inj
    (by simpa [List.append_assoc] using h) (by simp [pad4_length])
  have hy := pad4_inj hy1 hy2 e0.1
  have e1 : pad2 t₁.month ++ ('-' :: pad2 t₁.day ++
      'T' :: pad2 t₁.hour ++ ':' :: pad2 t₁.minute ++ ':' :: pad2 t₁.second ++
      "+00:00".toList) = pad2 t₂.month ++ ('-' :: pad2 t₂.day ++
      'T' :: pad2 t₂.hour ++ ':' :: pad2 t₂.minute ++ ':' :: pad2 t₂.second ++
      "+00:00".toList) := by
    have := e0.2
    simpa [List.append_assoc] using this
  have e1' := List.append_inj e1 (by simp [pad2_length])
  have hmo := pad2_inj hmo1 hmo2 e1'.1
  have e2 : pad2 t₁.day ++ ('T' :: pad2 t₁.hour ++ ':' :: pad2 t₁.minute ++
      ':' :: pad2 t₁.second ++ "+00:00".toList) =
      pad2 t₂.day ++ ('T' :: pad2 t₂.hour ++ ':' :: pad2 t₂.minute ++
      ':' :: pad2 t₂.second ++ "+00:00".toList) := by
    have := e1'.2
    simpa [List.append_assoc] using this
  have e2' := List.append_inj e2 (by simp [pad2_length])
  have hd := pad2_inj hd1 hd2 e2'.1
  have e3 : pad2 t₁.hour ++ (':' :: pad2 t₁.minute ++
      ':' :: pad2 t₁.second ++ "+00:00".toList) =
      pad2 t₂.hour ++ (':' :: pad2 t₂.minute ++
      ':' :: pad2 t₂.second ++ "+00:00".toList) := by
    have := e2'.2
    simpa [List.append_assoc] using this
  have e3' := List.append_inj e3 (by simp [pad2_length])
  have hh := pad2_inj hh1 hh2 e3'.1
  have e4 : pad2 t₁.minute ++ (':' :: pad2 t₁.second ++ "+00:00".toList) =
      pad2 t₂.minute ++ (':' :: pad2 t₂.second ++ "+00:00".toList) := by
    have := e3'.2
    simpa [List.append_assoc] using this
  have e4' := List.append_inj e4 (by simp [pad2_length])
  have hmi := pad2_inj hmi1 hmi2 e4'.1
  have e5 : pad2 t₁.second ++ "+00:00".toList =
      pad2 t₂.second ++ "+00:00".toList := by
    have := e4'.2
    simpa [List.append_assoc] using this
  have e5' := List.append_inj e5 (by simp [pad2_length])
  have hs := pad2_inj hs1 hs2 e5'.1
  cases t₁; cases t₂
  simp_all

/-! ## Claim C1 -/

/-- Python `str.lower()` restricted to ASCII letters (used only to state that
two filenames "differ only in letter case"). -/
def asciiLower (c : Char) : Char :=
  if 'A' ≤ c ∧ c ≤ 'Z' then Char.ofNat (c.toNat + 32) else c

/-- A concrete segment whose filename is upper-case. -/
def segUpperCE : QuickBlockTransferSegment :=
  { filename := "A.TXT".toList, block_number := 1, total_blocks := 1,
    content := [], checksum := 0, length := 0, version := 1,
    timestamp := ⟨2024, 1, 15, 12, 0, 0⟩, header := [], source := [] }

/-- The same segment with the filename in lower case. -/
def segLowerCE : QuickBlockTransferSegment :=
  { segUpperCE with filename := "a.txt".toList }

/-- Claim C1, counterexample: two segments whose filenames differ only in
letter case and that share a timestamp do NOT map to the same completion key
— `QuickBlockTransferSegment.key` uses the filename as-is, without
lowercasing. -/
theorem claim_C1_counterexample :
    segUpperCE.filename ≠ segLowerCE.filename ∧
    segUpperCE.filename.map asciiLower = segLowerCE.filename.map asciiLower ∧
    segUpperCE.timestamp = segLowerCE.timestamp ∧
    segUpperCE.key ≠ segLowerCE.key := by
  decide

/-- Claim C1, amended: the completion key is the filename as written
(case-preserved), followed by `"_"`, followed by the ISO-8601 rendering of
the header timestamp; two segments share a key exactly when they share both
the exact filename and the timestamp — so a different timestamp (or a
filename differing even only in case) yields a distinct key. -/
theorem claim_C1_key_format :
    (∀ s : QuickBlockTransferSegment,
      s.key = s.filename ++ '_' :: s.timestamp.isoformat) ∧
    (∀ s₁ s₂ : QuickBlockTransferSegment,
      s₁.timestamp.InRange → s₂.timestamp.InRange →
      (s₁.key = s₂.key ↔
        s₁.filename = s₂.filename ∧ s₁.timestamp = s₂.timestamp)) := by
  constructor
  · intro s; rfl
  · intro s₁ s₂ hr1 hr2
    constructor
    · intro h
      unfold QuickBlockTransferSegment.key at h
      have hlen : s₁.filename.length = s₂.filename.length := by
        have := congrArg List.length h
        simp [isoformat_length] at this
        omega
      have h' : s₁.filename ++ '_' :: s₁.timestamp.isoformat =
          s₂.filename ++ '_' :: s₂.timestamp.isoformat := h
      have := List.append_inj h' hlen
      refine ⟨this.1, ?_⟩
      have hiso : s₁.timestamp.isoformat = s₂.timestamp.isoformat := by
        have := this.2
        simpa using this
      exact isoformat_inj hr1 hr2 hiso
    · intro ⟨hf, ht⟩
      unfold QuickBlockTransferSegment.key
      rw [hf, ht]

/-- Witness for C1 at concrete inputs: same filename, different timestamps
give different keys. -/
theorem claim_C1_witness :
    segUpperCE.key ≠
      ({ segUpperCE with timestamp := ⟨2024, 1, 15, 12, 0, 1⟩ }).key := by
  intro h
  have h2 := (claim_C1_key_format.2 segUpperCE
    { segUpperCE with timestamp := ⟨2024, 1, 15, 12, 0, 1⟩ }
    (by decide) (by decide)).mp h
  exact absurd h2.2 (by decide)

/-! ## Helper lemmas for the assembler -/

theorem dictFind_eq_none_of_not_mem_keys {k : List Char}
    {d : List (List Char × List QuickBlockTransferSegment)}
    (h : k ∉ d.map Prod.fst) : dictFind k d = none := by
  induction d with
  | nil => rfl
  | cons p rest ih =>
      simp only [List.map_cons, List.mem_cons] at h
      push_neg at h
      simp only [dictFind]
      rw [if_neg (fun he => h.1 he.symm)]
      exact ih h.2

theorem dictFind_erase_set {k : List Char}
    {v : List QuickBlockTransferSegment}
    {d : List (List Char × List QuickBlockTransferSegment)}
    (hnd : (d.map Prod.fst).Nodup) :
    dictFind k (dictErase k (dictSet k v d)) = none := by
  induction d with
  | nil => simp [dictSet, dictErase, dictFind]
  | cons p rest ih =>
      obtain ⟨k', v'⟩ := p
      simp only [List.map_cons, List.nodup_cons] at hnd
      by_cases hk : k' = k
      · subst hk
        simp only [dictSet, if_pos rfl, dictErase, if_pos rfl]
        exact dictFind_eq_none_of_not_mem_keys hnd.1
      · simp only [dictSet, if_neg hk, dictErase, if_neg hk, dictFind]
        exact ih hnd.2

theorem mem_drop_append_singleton {k : List Char} :
    ∀ (q : List (List Char)) (d : Nat), d ≤ q.length → k ∈ (q ++ [k]).drop d := by
  intro q
  induction q with
  | nil =>
      intro d hd
      have hd0 : d = 0 := by simpa using hd
      subst hd0
      simp
  | cons x xs ih =>
      intro d hd
      cases d with
      | zero => simp
      | succ n =>
          simp only [List.cons_append, List.drop_succ_cons]
          exact ih n (by simpa using hd)

theorem mem_dequeAppend_self (cap : Nat) (hcap : 1 ≤ cap)
    (q : List (List Char)) (k : List Char) : k ∈ dequeAppend cap q k := by
  unfold dequeAppend
  by_cases h : (q ++ [k]).length ≤ cap
  · rw [if_pos h]; simp
  · rw [if_neg h]
    apply mem_drop_append_singleton
    simp only [List.length_append, List.length_cons, List.length_nil]
    omega

/-- Shared computation: under the completion conditions, `handle_segment`
produces exactly the reassembled file and the updated state. -/
theorem handle_segment_completes (st : AssemblerState)
    (seg : QuickBlockTransferSegment)
    (bucket : List QuickBlockTransferSegment)
    (hdup : seg.key ∉ st.recently_completed)
    (hfill : seg.filename ≠ "FILLFILE.TXT".toList)
    (hbucket : (dictFind seg.key st.file_segments).getD [] = bucket)
    (hfull : ((bucket.length + 1 : Int) = seg.total_blocks)) :
    handle_segment st seg =
      ({ file_segments :=
            dictErase seg.key (dictSet seg.key (bucket ++ [seg]) st.file_segments),
         recently_completed :=
            dequeAppend st.cache_size st.recently_completed seg.key,
         cache_size := st.cache_size },
       [⟨((sortSegments (bucket ++ [seg])).headD default).filename,
         ((sortSegments (bucket ++ [seg])).map (fun s => s.content)).flatten⟩]) := by
  unfold handle_segment
  rw [if_neg hdup, if_neg hfill, hbucket]
  have hlen : (((bucket ++ [seg]).length : Int) = seg.total_blocks) := by
    simpa using hfull
  rw [if_pos hlen]
  rfl

theorem perm_eq_of_map_eq_nodup {α β : Type} (f : α → β) :
    ∀ (l1 l2 : List α), l1.Perm l2 → l1.map f = l2.map f →
      (l1.map f).Nodup → l1 = l2 := by
  intro l1
  induction l1 with
  | nil =>
      intro l2 _ hm _
      have : l2.map f = [] := hm.symm
      simp only [List.map_eq_nil_iff] at this
      rw [this]
  | cons a t1 ih =>
      intro l2 hp hm hnd
      cases l2 with
      | nil => exact absurd hm (by simp)
      | cons b t2 =>
          simp only [List.map_cons, List.cons.injEq] at hm
          obtain ⟨hab, ht⟩ := hm
          have hmem : a ∈ b :: t2 := hp.mem_iff.mp (by simp)
          rcases List.mem_cons.mp hmem with heq | hmem2
          · subst heq
            have hperm := hp.cons_inv
            simp only [List.map_cons, List.nodup_cons] at hnd
            rw [ih t2 hperm ht hnd.2]
          · exfalso
            simp only [List.map_cons, List.nodup_cons] at hnd
            have hfa : f a ∈ t2.map f := List.mem_map_of_mem f hmem2
            rw [← ht] at hfa
            rw [hab] at hfa
            exact hnd.1 (hab ▸ hfa)

/-- Sorting by block number is independent of arrival order when the block
numbers are pairwise distinct. -/
theorem sortSegments_perm_eq {l1 l2 : List QuickBlockTransferSegment}
    (hp : l1.Perm l2)
    (hnd : (l1.map (fun s => s.block_number)).Nodup) :
    sortSegments l1 = sortSegments l2 := by
  have htrans : ∀ a b c : QuickBlockTransferSegment,
      (a.block_number ≤ b.block_number : Bool) = true →
      (b.block_number ≤ c.block_number : Bool) = true →
      (a.block_number ≤ c.block_number : Bool) = true := by
    intro a b c hab hbc
    simp only [decide_eq_true_eq] at hab hbc ⊢
    omega
  have htotal : ∀ a b : QuickBlockTransferSegment,
      ((a.block_number ≤ b.block_number : Bool) ||
        (b.block_number ≤ a.block_number : Bool)) = true := by
    intro a b
    simp only [Bool.or_eq_true, decide_eq_true_eq]
    exact Int.le_total a.block_number b.block_number
  have hs1 := List.sorted_mergeSort htrans htotal l1
  have hs2 := List.sorted_mergeSort htrans htotal l2
  have hp1 := List.mergeSort_perm l1
    (fun a b => a.block_number ≤ b.block_number)
  have hp2 := List.mergeSort_perm l2
    (fun a b => a.block_number ≤ b.block_number)
  have hperm : (sortSegments l1).Perm (sortSegments l2) :=
    (hp1.trans hp).trans hp2.symm
  have hsort1 : List.Sorted (· ≤ ·)
      ((sortSegments l1).map (fun s => s.block_number)) := by
    rw [List.Sorted, List.pairwise_map]
    exact hs1.imp (fun h => by simpa using h)
  have hsort2 : List.Sorted (· ≤ ·)
      ((sortSegments l2).map (fun s => s.block_number)) := by
    rw [List.Sorted, List.pairwise_map]
    exact hs2.imp (fun h => by simpa using h)
  have hmap : (sortSegments l1).map (fun s => s.block_number) =
      (sortSegments l2).map (fun s => s.block_number) :=
    List.eq_of_perm_of_sorted (hperm.map (fun s => s.block_number))
      hsort1 hsort2
  have hndsort : ((sortSegments l1).map (fun s => s.block_number)).Nodup :=
    (hp1.map (fun s => s.block_number)).nodup_iff.mpr hnd
  exact perm_eq_of_map_eq_nodup (fun s => s.block_number)
    (sortSegments l1) (sortSegments l2) hperm hmap hndsort

/-! ## Claim C2 -/

/-- Claim C2: when the appended segment fills the bucket for its completion
key to exactly `total_blocks` elements, `handle_segment` produces exactly one
`CompletedFile`, whose data is the concatenation of the bucket's contents
sorted by ascending `block_number` and whose filename comes from the first
sorted segment; the bucket for the key is then gone from the assembler's
state (under the dictionary invariant that keys are unique).  The last
conjunct is the arrival-order independence: with pairwise-distinct block
numbers, any permutation of the bucket sorts identically, so the reassembled
data does not depend on the order the segments arrived in. -/
theorem claim_C2_completion (st : AssemblerState)
    (seg : QuickBlockTransferSegment)
    (bucket : List QuickBlockTransferSegment)
    (hnd : (st.file_segments.map Prod.fst).Nodup)
    (hdup : seg.key ∉ st.recently_completed)
    (hfill : seg.filename ≠ "FILLFILE.TXT".toList)
    (hbucket : (dictFind seg.key st.file_segments).getD [] = bucket)
    (hfull : ((bucket.length + 1 : Int) = seg.total_blocks)) :
    (handle_segment st seg).2 =
      [⟨((sortSegments (bucket ++ [seg])).headD default).filename,
        ((sortSegments (bucket ++ [seg])).map (fun s => s.content)).flatten⟩] ∧
    dictFind seg.key (handle_segment st seg).1.file_segments = none ∧
    (∀ bucket₂ : List QuickBlockTransferSegment,
      (bucket ++ [seg]).Perm bucket₂ →
      ((bucket ++ [seg]).map (fun s => s.block_number)).Nodup →
      sortSegments bucket₂ = sortSegments (bucket ++ [seg])) := by
  rw [handle_segment_completes st seg bucket hdup hfill hbucket hfull]
  exact ⟨rfl, dictFind_erase_set hnd,
    fun bucket₂ hp hnodup => (sortSegments_perm_eq hp hnodup).symm⟩

/-- Witness for C2: a concrete single-block file completes with its own
content. -/
theorem claim_C2_witness :
    (handle_segment ⟨[], [], 100⟩
        { segUpperCE with content := [1, 2, 3] }).2 =
      [⟨"A.TXT".toList, [1, 2, 3]⟩] := by
  have h := claim_C2_completion ⟨[], [], 100⟩
    { segUpperCE with content := [1, 2, 3] } []
    (by decide) (by decide) (by decide) (by decide) (by decide)
  rw [h.1]
  simp only [List.nil_append, sortSegments, List.mergeSort_singleton]
  decide

/-! ## Claim C8 -/

/-- Claim C8: a segment whose completion key is in the recent-completions
cache is ignored outright (state unchanged, nothing dispatched); and after a
completion (with a nonempty cache capacity), replaying any segment with the
completed key is ignored, so a completed file is dispatched exactly once. -/
theorem claim_C8_duplicate_suppression :
    (∀ (st : AssemblerState) (seg : QuickBlockTransferSegment),
      seg.key ∈ st.recently_completed → handle_segment st seg = (st, [])) ∧
    (∀ (st : AssemblerState) (seg : QuickBlockTransferSegment)
        (bucket : List QuickBlockTransferSegment),
      1 ≤ st.cache_size →
      seg.key ∉ st.recently_completed →
      seg.filename ≠ "FILLFILE.TXT".toList →
      (dictFind seg.key st.file_segments).getD [] = bucket →
      ((bucket.length + 1 : Int) = seg.total_blocks) →
      (handle_segment st seg).2.length = 1 ∧
      (∀ seg₂ : QuickBlockTransferSegment, seg₂.key = seg.key →
        handle_segment (handle_segment st seg).1 seg₂ =
          ((handle_segment st seg).1, []))) := by
  have hskip : ∀ (st : AssemblerState) (seg : QuickBlockTransferSegment),
      seg.key ∈ st.recently_completed → handle_segment st seg = (st, []) := by
    intro st seg h
    unfold handle_segment
    rw [if_pos h]
  refine ⟨hskip, ?_⟩
  intro st seg bucket hcap hdup hfill hbucket hfull
  rw [handle_segment_completes st seg bucket hdup hfill hbucket hfull]
  constructor
  · rfl
  · intro seg₂ hk
    apply hskip
    rw [hk]
    exact mem_dequeAppend_self st.cache_size hcap st.recently_completed seg.key

/-- Witness for C8: completing a concrete file and replaying the same segment
dispatches nothing the second time. -/
theorem claim_C8_witness :
    handle_segment (handle_segment ⟨[], [], 100⟩ segUpperCE).1 segUpperCE =
      ((handle_segment ⟨[], [], 100⟩ segUpperCE).1, []) := by
  exact (claim_C8_duplicate_suppression.2 ⟨[], [], 100⟩ segUpperCE []
    (by decide) (by decide) (by decide) (by decide) (by decide)).2
    segUpperCE rfl

/-! ## Claim C10 -/

/-- Claim C10: a `ByteBlasterServerList` constructed with an empty regular
list is populated with the four built-in default servers, and every server
list produced by `from_server_list_frame` — including from frames with zero
valid entries — has a nonempty regular list. -/
theorem claim_C10_defaults_nonempty :
    (∀ sat : List (List Char × Int),
      (makeServerList [] sat).servers = defaultServersParsed) ∧
    defaultServersParsed.length = 4 ∧
    (∀ (content : List Char) (L : ByteBlasterServerList),
      from_server_list_frame content = some L → L.servers ≠ []) := by
  refine ⟨fun sat => rfl, by decide, ?_⟩
  intro content L h
  unfold from_server_list_frame at h
  by_cases hp : ("/ServerList/".toList).isPrefixOf content
  · rw [if_pos hp] at h
    simp only [Option.some.injEq] at h
    subst h
    unfold makeServerList
    by_cases hz :
        (match allParsed
            (((splitOnChar '|'
                (match subIdx ("\\ServerList\\".toList) (content.drop 12) with
                 | some j => (content.drop 12).take j
                 | none => content.drop 12)).map stripPy).filter
              (fun e => e ≠ [])) with
          | some l => l
          | none =>
            (((splitOnChar '|'
                (match subIdx ("\\ServerList\\".toList) (content.drop 12) with
                 | some j => (content.drop 12).take j
                 | none => content.drop 12)).map stripPy).filter
              (fun e => e ≠ [])).filterMap parse_server) = []
    · rw [if_pos hz]
      decide
    · rw [if_neg hz]
      exact hz
  · rw [if_neg hp] at h
    exact absurd h (by simp)

/-- Witness for C10: a frame with zero valid entries yields the default
pool. -/
theorem claim_C10_witness :
    ∃ L : ByteBlasterServerList,
      from_server_list_frame ("/ServerList/garbage".toList) = some L ∧
      L.servers ≠ [] := by
  refine ⟨makeServerList [] [], by decide, ?_⟩
  exact claim_C10_defaults_nonempty.2.2 ("/ServerList/garbage".toList)
    (makeServerList [] []) (by decide)

/-! ## Protocol decoder (src/byteblaster/protocol/decoder.py)

The decoder consumes XOR-decoded bytes through a state machine.  Its segment
record is `byteblaster.protocol.models.QBTSegment`; that module is not under
`src/`, so the record is modelled from the spec (§3 "Segment (QBT block)")
restricted to the fields the decoder itself fills in.  The `timestamp` field
is a pure function of the header `FD` text (plus a wall-clock fallback when
parsing fails), so the raw `FD` text stands in for it here; `received_at` is
wall-clock metadata and is omitted. -/

/-- Python exception classes distinguished by the decoder paths:
`ValueError` (with its subclass `UnicodeEncodeError`), `OSError`,
`zlib.error` (a direct subclass of `Exception`, caught by neither of the
former), and `RuntimeError`. -/
inductive PyExc
  | valueError
  | osError
  | zlibError
  | runtimeError
deriving DecidableEq, Repr

/-- The `zlib.decompress` oracle: external C code, modelled as a function
from input bytes to either the inflated bytes or a raised exception class. -/
def Inflate : Type := List Nat → Except PyExc (List Nat)

/-- Modelled from the spec: XOR-with-0xFF of one byte
(`byteblaster/utils/crypto.py`, pinned by `tests/utils/test_crypto.py`). -/
def xorByte (b : Nat) : Nat := b ^^^ 255

/-- Modelled from the spec: XOR-decode of a byte string; the XOR buffer
stores decoded bytes and `append` applies the XOR as data arrives. -/
def xorDecode (data : List Nat) : List Nat := data.map xorByte

/-- Modelled from the spec: `calculate_checksum(b) = sum(b) & 0xFFFF`
(`byteblaster/utils/crypto.py`, pinned by `tests/utils/test_crypto.py`). -/
def calculate_checksum (data : List Nat) : Nat := data.sum &&& 65535

/-- Modelled from the spec: `verify_checksum` compares the computed 16-bit
additive checksum with the expected value. -/
def verify_checksum (data : List Nat) (expected : Nat) : Bool :=
  calculate_checksum data == expected

/-- Modelled from the spec: `decompress_zlib(data, skip_header_bytes)` —
raise `ValueError` when the data is shorter than the header to skip
(`tests/utils/test_crypto.py::test_decompress_zlib_too_short`), otherwise
inflate the rest (failures there surface as `zlib.error`,
`tests/utils/test_crypto.py::test_decompress_zlib_invalid_data`). -/
def decompress_zlib (inflate : Inflate) (data : List Nat) (skip : Nat) :
    Except PyExc (List Nat) :=
  if data.length < skip then .error .valueError else inflate (data.drop skip)

/-- The decoder's segment record (`QBTSegment`), restricted to the fields the
decoder fills from the wire (see the section comment). -/
structure QBTSegment where
  filename : List Char
  block_number : Int
  total_blocks : Int
  content : List Nat
  checksum : Nat
  length : Nat
  version : Nat
  fd : List Char
  header : List Char
deriving DecidableEq, Repr

/-- Protocol frames: a data block (content plus segment) or a server list
(raw ASCII content plus the parsed list). -/
inductive ProtocolFrame
  | dataBlock (content : List Nat) (segment : QBTSegment)
  | serverList (content : List Char) (server_list : ByteBlasterServerList)
deriving DecidableEq, Repr

/-! ### Header parsing (`HEADER_REGEX`)

The regex
`^/PF(?P<PF>[A-Za-z0-9\-._]+)\s*/PN\s*(?P<PN>[0-9]+)\s*/PT\s*(?P<PT>[0-9]+)\s*`
`/CS\s*(?P<CS>[0-9]+)\s*/FD(?P<FD>[0-9/: ]+[AP]M)\s*(/DL(?P<DL>[0-9]+)\s*)?\r\n$`
is embedded as a deterministic parser.  Each greedy character-class run is
followed by a character outside the class (`/`, `A`/`P`, whitespace), so the
runs are maximal and no backtracking can produce a different match; the only
flexible point, `\s*` before the optional `/DL` group and before the final
`\r\n`, is resolved the way the engine resolves it (the run of whitespace up
to the first non-whitespace character, which must then be `/DL` or the final
`\r\n`).  Python's `$` also matches just before a single trailing newline,
which `tailMatch` reproduces. -/

/-- The `\s` class of a bytes regex: space, TAB, LF, CR, VT, FF. -/
def isWSb (c : Char) : Bool :=
  c == ' ' || c == '\t' || c == '\n' || c == '\r' ||
    c == Char.ofNat 11 || c == Char.ofNat 12

/-- The filename class `[A-Za-z0-9\-._]`. -/
def isFnameChar (c : Char) : Bool :=
  c.isAlpha || c.isDigit || c == '-' || c == '.' || c == '_'

/-- The header-date class `[0-9/: ]`. -/
def isFDChar (c : Char) : Bool :=
  c.isDigit || c == '/' || c == ':' || c == ' '

/-- Strip a literal prefix, or fail. -/
def stripPrefixL (pat s : List Char) : Option (List Char) :=
  if pat.isPrefixOf s then some (s.drop pat.length) else none

/-- Parse a maximal nonempty run of characters satisfying `p`. -/
def many1 (p : Char → Bool) (s : List Char) : Option (List Char × List Char) :=
  let t := s.takeWhile p
  if t.isEmpty then none else some (t, s.drop t.length)

/-- List-ends-with test. -/
def endsWithL (pat s : List Char) : Bool := pat.isSuffixOf s

/-- Match of `\s*\r\n$` against the remaining text `r`: a run of whitespace,
then the literal `\r\n`, at the end of the string or just before one trailing
newline (Python `$`). -/
def tailMatch (r : List Char) : Bool :=
  (endsWithL ("\r\n".toList) r && (r.take (r.length - 2)).all isWSb) ||
  (endsWithL ("\r\n\n".toList) r && (r.take (r.length - 3)).all isWSb)

/-- The named groups of a successful `HEADER_REGEX` match (numeric groups
already converted with Python `int`, which the regex guarantees to succeed). -/
structure HeaderGroups where
  pf : List Char
  pn : Nat
  pt : Nat
  cs : Nat
  fd : List Char
  dl : Option Nat
deriving DecidableEq, Repr

/-- Deterministic embedding of `HEADER_REGEX.match` (see the section
comment); `none` is a failed match. -/
def parseHeader (s : List Char) : Option HeaderGroups := do
  let s1 ← stripPrefixL ("/PF".toList) s
  let (pf, s2) ← many1 isFnameChar s1
  let s3 ← stripPrefixL ("/PN".toList) (s2.dropWhile isWSb)
  let (pn, s4) ← many1 Char.isDigit (s3.dropWhile isWSb)
  let s5 ← stripPrefixL ("/PT".toList) (s4.dropWhile isWSb)
  let (pt, s6) ← many1 Char.isDigit (s5.dropWhile isWSb)
  let s7 ← stripPrefixL ("/CS".toList) (s6.dropWhile isWSb)
  let (cs, s8) ← many1 Char.isDigit (s7.dropWhile isWSb)
  let s9 ← stripPrefixL ("/FD".toList) (s8.dropWhile isWSb)
  let (fdRun, s10) ← many1 isFDChar s9
  let (ap, s11) ←
    match s10 with
    | c :: rest => if c == 'A' || c == 'P' then some (c, rest) else none
    | [] => none
  let s12 ← stripPrefixL (['M']) s11
  let fd := fdRun ++ [ap, 'M']
  let w := s12.dropWhile isWSb
  if ("/DL".toList).isPrefixOf w then
    let (dl, s13) ← many1 Char.isDigit (w.drop 3)
    if tailMatch s13 then
      some ⟨pf, digitsToNat pn, digitsToNat pt, digitsToNat cs, fd,
        some (digitsToNat dl)⟩
    else none
  else
    if tailMatch s12 then
      some ⟨pf, digitsToNat pn, digitsToNat pt, digitsToNat cs, fd, none⟩
    else none

/-- `_parse_header_groups`: build the in-progress segment.  `/DL` present
means V2 with `length = int(DL)`, which must lie in `1..1024` (else
`ValueError`); absent means V1 with `length = 1024`. -/
def mkSegmentFromHeader (g : HeaderGroups) (headerChars : List Char) :
    Except PyExc QBTSegment :=
  match g.dl with
  | some dl =>
      if dl = 0 ∨ 1024 < dl then .error .valueError
      else .ok ⟨g.pf, (g.pn : Int), (g.pt : Int), [], g.cs, dl, 2, g.fd,
        headerChars⟩
  | none => .ok ⟨g.pf, (g.pn : Int), (g.pt : Int), [], g.cs, 1024, 1, g.fd,
      headerChars⟩

/-! ### Checksum validation (`_validate_segment_checksum` and friends) -/

/-- `_validate_v1_checksum`: the header checksum masked to 16 bits against
the additive checksum of the content. -/
def validate_v1_checksum (seg : QBTSegment) : Bool :=
  verify_checksum seg.content (seg.checksum &&& 65535)

/-- `_is_compressed_data`: the content starts with a zlib header
`0x78 0x9C`, `0x78 0xDA`, or `0x78 0x01`. -/
def is_compressed_data (c : List Nat) : Bool :=
  match c with
  | a :: b :: _ => a == 120 && (b == 156 || b == 218 || b == 1)
  | _ => false

/-- `_validate_compressed_data`: inflate; on success compare the checksum of
the uncompressed bytes and replace the content when it matches; a raised
`OSError` or `ValueError` falls back to checking the compressed bytes; any
other exception class (in particular `zlib.error`) propagates. -/
def validate_compressed_data (inflate : Inflate) (seg : QBTSegment) :
    Except PyExc (Bool × QBTSegment) :=
  match inflate seg.content with
  | .ok un =>
      if verify_checksum un seg.checksum then
        .ok (true, { seg with content := un })
      else .ok (false, seg)
  | .error e =>
      match e with
      | .osError => .ok (verify_checksum seg.content seg.checksum, seg)
      | .valueError => .ok (verify_checksum seg.content seg.checksum, seg)
      | _ => .error e

/-- `_validate_v2_checksum`: dispatch on whether the content looks
compressed. -/
def validate_v2_checksum (inflate : Inflate) (seg : QBTSegment) :
    Except PyExc (Bool × QBTSegment) :=
  if is_compressed_data seg.content then validate_compressed_data inflate seg
  else .ok (verify_checksum seg.content seg.checksum, seg)

/-- `_validate_segment_checksum`: by protocol version (other versions are
invalid). -/
def validateSegmentChecksum (inflate : Inflate) (seg : QBTSegment) :
    Except PyExc (Bool × QBTSegment) :=
  if seg.version == 1 then .ok (validate_v1_checksum seg, seg)
  else if seg.version == 2 then validate_v2_checksum inflate seg
  else .ok (false, seg)

/-- Python `str.upper()` restricted to ASCII (filenames come from the ASCII
header classes). -/
def asciiUpper (c : Char) : Char :=
  if 'a' ≤ c ∧ c ≤ 'z' then Char.ofNat (c.toNat - 32) else c

/-- `segment.filename.upper().endswith((".TXT", ".WMO"))`. -/
def endsWithTxtWmo (f : List Char) : Bool :=
  endsWithL (".TXT".toList) (f.map asciiUpper) ||
    endsWithL (".WMO".toList) (f.map asciiUpper)

/-- Trailing-pad byte for text trimming: `{0x00, space, TAB, CR, LF}`. -/
def isPadByte (b : Nat) : Bool :=
  b == 0 || b == 32 || b == 9 || b == 13 || b == 10

/-- `content.rstrip(b"\x00 \t\r\n")`. -/
def rstripPad (c : List Nat) : List Nat :=
  (c.reverse.dropWhile isPadByte).reverse

/-! ### The state machine -/

/-- `DecoderState`. -/
inductive DecoderState
  | resync
  | startFrame
  | frameType
  | serverList
  | blockHeader
  | blockBody
  | validate
deriving DecidableEq, Repr

/-- Decoder state proper: the current state, the XOR-decoded buffer contents
(`XorBuffer` is a cursor-backed byte buffer; its unread contents are a byte
list), and the in-progress segment. -/
structure Machine where
  state : DecoderState
  buffer : List Nat
  current : Option QBTSegment
deriving DecidableEq, Repr

/-- The fresh decoder (`__init__`) and the result of `reset()`. -/
def initMachine : Machine := ⟨.resync, [], none⟩

/-- Result of processing one state (`_process_current_state`): progress (with
emitted frames), no progress (need more data), or a raised exception. -/
inductive StepOut
  | more (m : Machine) (frames : List ProtocolFrame)
  | stop (m : Machine)
  | fail (e : PyExc) (m : Machine)
deriving DecidableEq, Repr

/-- Position of the first run of six consecutive `0x00` bytes (the scan loop
of `_synchronize_frame`, which peeks a 6-byte window at each start
position). -/
def findSync : List Nat → Option Nat
  | b0 :: b1 :: b2 :: b3 :: b4 :: b5 :: rest =>
      if b0 == 0 && b1 == 0 && b2 == 0 && b3 == 0 && b4 == 0 && b5 == 0 then
        some 0
      else (findSync (b1 :: b2 :: b3 :: b4 :: b5 :: rest)).map (· + 1)
  | _ => none

/-- Position of the first `0x00` byte (the scan of
`_read_null_terminated_string`). -/
def findNull : List Nat → Option Nat
  | [] => none
  | x :: xs => if x == 0 then some 0 else (findNull xs).map (· + 1)

/-- `_is_data_block_header`: at least 3 bytes and `/PF` (0x2F 0x50 0x46). -/
def isDataBlockHeader (h : List Nat) : Bool :=
  match h with
  | a :: b :: c :: _ => a == 47 && b == 80 && c == 70
  | _ => false

/-- `_is_server_list_header`: at least 3 bytes and `/Se` (0x2F 0x53 0x65). -/
def isServerListHeader (h : List Nat) : Bool :=
  match h with
  | a :: b :: c :: _ => a == 47 && b == 83 && c == 101
  | _ => false

/-- `bytes.decode("ascii", errors="replace")`: bytes ≥ 0x80 become U+FFFD. -/
def decodeAsciiReplace (bs : List Nat) : List Char :=
  bs.map (fun b => if b < 128 then Char.ofNat b else Char.ofNat 65533)

/-- The sentinel `b"\\SatServers\\\x00"` searched for when no null terminator
is in the buffer.  It contains the null byte, so that branch never fires. -/
def satEndPattern : List Nat :=
  (("\\SatServers\\".toList).map Char.toNat) ++ [0]

/-- Frames emitted by `_process_server_list` for given content bytes: parse
(a `ValueError` is caught and logged), then build the frame — whose
`content.encode("ascii")` raises a (caught) `UnicodeEncodeError` when the
replace-decoded text contains U+FFFD, i.e. when some byte is ≥ 0x80. -/
def serverFrames (contentBytes : List Nat) : List ProtocolFrame :=
  match from_server_list_frame (decodeAsciiReplace contentBytes) with
  | some sl =>
      if contentBytes.all (fun b => b < 128) then
        [.serverList (decodeAsciiReplace contentBytes) sl]
      else []
  | none => []

/-- One call of `_process_current_state`, embedding all seven state
handlers. -/
def step (inflate : Inflate) (m : Machine) : StepOut :=
  match m.state with
  | .resync =>
      -- _synchronize_frame
      if m.buffer.length < 6 then .stop m
      else
        match findSync m.buffer with
        | some p => .more ⟨.startFrame, m.buffer.drop (p + 6), m.current⟩ []
        | none =>
            if 6 < m.buffer.length then
              .stop ⟨.resync, m.buffer.drop (m.buffer.length - 5), m.current⟩
            else .stop m
  | .startFrame =>
      -- _skip_null_bytes
      let rest := m.buffer.dropWhile (fun b => b == 0)
      if rest.isEmpty then .stop ⟨.startFrame, rest, m.current⟩
      else .more ⟨.frameType, rest, m.current⟩ []
  | .frameType =>
      -- _determine_frame_type
      if m.buffer.length < 10 then .stop m
      else
        let hd := m.buffer.take (min 20 m.buffer.length)
        if isDataBlockHeader hd then .more ⟨.blockHeader, m.buffer, m.current⟩ []
        else if isServerListHeader hd then
          .more ⟨.serverList, m.buffer, m.current⟩ []
        else .more ⟨.resync, m.buffer.drop 1, m.current⟩ []
  | .serverList =>
      -- _process_server_list
      match findNull m.buffer with
      | some i =>
          .more ⟨.startFrame, m.buffer.drop (i + 1), m.current⟩
            (serverFrames (m.buffer.take i))
      | none =>
          match subIdx satEndPattern m.buffer with
          | some j =>
              let endPos := j + satEndPattern.length
              .more ⟨.startFrame, m.buffer.drop endPos, m.current⟩
                (serverFrames (m.buffer.take (endPos - 1)))
          | none => .stop m
  | .blockHeader =>
      -- _process_block_header
      if m.buffer.length < 80 then .stop m
      else
        let headerBytes := m.buffer.take 80
        let rest := m.buffer.drop 80
        if headerBytes.all (fun b => b < 128) then
          match parseHeader (headerBytes.map Char.ofNat) with
          | none => .fail .valueError ⟨.blockHeader, rest, m.current⟩
          | some g =>
              match mkSegmentFromHeader g (headerBytes.map Char.ofNat) with
              | .error e => .fail e ⟨.blockHeader, rest, m.current⟩
              | .ok seg => .more ⟨.blockBody, rest, some seg⟩ []
        else
          -- header_str.encode("ascii") raises UnicodeEncodeError (a
          -- ValueError) on the U+FFFD replacement characters
          .fail .valueError ⟨.blockHeader, rest, m.current⟩
  | .blockBody =>
      -- _process_block_body
      match m.current with
      | none => .fail .runtimeError m
      | some seg =>
          if m.buffer.length < seg.length then .stop m
          else
            let body := m.buffer.take seg.length
            let rest := m.buffer.drop seg.length
            if seg.version == 2 then
              match decompress_zlib inflate body 2 with
              | .error e => .fail e ⟨.blockBody, rest, m.current⟩
              | .ok data =>
                  .more ⟨.validate, rest, some { seg with content := data }⟩ []
            else
              .more ⟨.validate, rest, some { seg with content := body }⟩ []
  | .validate =>
      -- _handle_validate / _validate_segment
      match m.current with
      | none => .fail .runtimeError m
      | some seg =>
          if seg.total_blocks ≤ 0 ∨ seg.block_number ≤ 0 then
            .more ⟨.startFrame, m.buffer, none⟩ []
          else if seg.total_blocks < seg.block_number then
            .more ⟨.startFrame, m.buffer, none⟩ []
          else if seg.filename = "FILLFILE.TXT".toList then
            .more ⟨.startFrame, m.buffer, none⟩ []
          else
            match validateSegmentChecksum inflate seg with
            | .error e => .fail e ⟨.validate, m.buffer, none⟩
            | .ok pr =>
                let seg2 :=
                  if endsWithTxtWmo pr.2.filename then
                    { pr.2 with content := rstripPad pr.2.content }
                  else pr.2
                .more ⟨.startFrame, m.buffer, none⟩ [.dataBlock seg2.content seg2]

/-! ### Termination of the processing loop

`_process_buffer` loops while a state handler reports progress.  Every
progress step strictly decreases `4 * |buffer| + stateRank`: transitions that
consume no bytes strictly descend in rank, and every rank ascent consumes at
least one byte. -/

/-- Rank of a state for the termination measure. -/
def stateRank : DecoderState → Nat
  | .blockBody => 5
  | .validate => 4
  | .startFrame => 3
  | .frameType => 2
  | .blockHeader => 1
  | .serverList => 1
  | .resync => 0

/-- Termination measure of the processing loop. -/
def mu (m : Machine) : Nat := 4 * m.buffer.length + stateRank m.state

theorem length_dropWhile_le {α : Type} (p : α → Bool) (l : List α) :
    (l.dropWhile p).length ≤ l.length := by
  induction l with
  | nil => simp [List.dropWhile]
  | cons x xs ih =>
      by_cases h : p x
      · simp only [List.dropWhile, h]
        simp only [List.length_cons]
        omega
      · simp only [List.dropWhile, h]
        simp

theorem findSync_bound {l : List Nat} {p : Nat} (h : findSync l = some p) :
    p + 6 ≤ l.length := by
  induction l using findSync.induct generalizing p with
  | case1 b0 b1 b2 b3 b4 b5 rest hz =>
      rw [findSync, if_pos hz] at h
      cases h
      simp
  | case2 b0 b1 b2 b3 b4 b5 rest hz ih =>
      rw [findSync, if_neg hz] at h
      cases hfs : findSync (b1 :: b2 :: b3 :: b4 :: b5 :: rest) with
      | none => rw [hfs] at h; cases h
      | some q =>
          rw [hfs] at h
          simp only [Option.map_some'] at h
          cases h
          have := ih hfs
          simp at this ⊢
          omega
  | case3 l hl =>
      rw [findSync.eq_def] at h
      rcases l with _ | ⟨a, _ | ⟨b, _ | ⟨c, _ | ⟨d, _ | ⟨e, _⟩⟩⟩⟩⟩ <;>
        simp_all

theorem findNull_bound {l : List Nat} {i : Nat} (h : findNull l = some i) :
    i < l.length := by
  induction l generalizing i with
  | nil => cases h
  | cons x xs ih =>
      rw [findNull] at h
      by_cases hx : x == 0
      · rw [if_pos hx] at h
        cases h
        simp
      · rw [if_neg hx] at h
        cases hfn : findNull xs with
        | none => rw [hfn] at h; cases h
        | some q =>
            rw [hfn] at h
            simp only [Option.map_some'] at h
            cases h
            have := ih hfn
            simp
            omega

theorem subIdx_bound {α : Type} [BEq α] [LawfulBEq α] {pat l : List α} {j : Nat}
    (h : subIdx pat l = some j) : j + pat.length ≤ l.length := by
  induction l generalizing j with
  | nil =>
      rw [subIdx] at h
      by_cases hp : pat.isEmpty
      · rw [if_pos hp] at h
        cases h
        simp_all [List.isEmpty_iff]
      · rw [if_neg hp] at h
        cases h
  | cons x xs ih =>
      rw [subIdx] at h
      by_cases hp : pat.isPrefixOf (x :: xs)
      · rw [if_pos hp] at h
        cases h
        have := List.IsPrefix.length_le (List.isPrefixOf_iff_prefix.mp hp)
        simpa using this
      · rw [if_neg hp] at h
        cases hs : subIdx pat xs with
        | none => rw [hs] at h; cases h
        | some q =>
            rw [hs] at h
            simp only [Option.map_some'] at h
            cases h
            have := ih hs
            simp
            omega

/-- Every progress step strictly decreases the measure. -/
theorem step_mu {inflate : Inflate} {m m' : Machine}
    {fs : List ProtocolFrame} (h : step inflate m = .more m' fs) :
    mu m' < mu m := by
  obtain ⟨st, buf, cur⟩ := m
  cases st
  case resync =>
      simp only [step] at h
      by_cases h6 : buf.length < 6
      · rw [if_pos h6] at h; cases h
      · rw [if_neg h6] at h
        cases hfs : findSync buf with
        | some p =>
            rw [hfs] at h
            cases h
            have := findSync_bound hfs
            simp [mu, stateRank, List.length_drop]
            omega
        | none =>
            rw [hfs] at h
            by_cases hgt : 6 < buf.length
            · rw [if_pos hgt] at h; cases h
            · rw [if_neg hgt] at h; cases h
  case startFrame =>
      simp only [step] at h
      by_cases he : (buf.dropWhile (fun b => b == 0)).isEmpty
      · rw [if_pos he] at h; cases h
      · rw [if_neg he] at h
        cases h
        have := length_dropWhile_le (fun b => b == 0) buf
        simp [mu, stateRank]
        omega
  case frameType =>
      simp only [step] at h
      by_cases h10 : buf.length < 10
      · rw [if_pos h10] at h; cases h
      · rw [if_neg h10] at h
        by_cases hdb : isDataBlockHeader (buf.take (min 20 buf.length))
        · rw [if_pos hdb] at h
          cases h
          simp [mu, stateRank]
        · rw [if_neg hdb] at h
          by_cases hsl : isServerListHeader (buf.take (min 20 buf.length))
          · rw [if_pos hsl] at h
            cases h
            simp [mu, stateRank]
          · rw [if_neg hsl] at h
            cases h
            simp [mu, stateRank, List.length_drop]
            omega
  case serverList =>
      simp only [step] at h
      cases hfn : findNull buf with
      | some i =>
          rw [hfn] at h
          cases h
          have := findNull_bound hfn
          simp [mu, stateRank, List.length_drop]
          omega
      | none =>
          rw [hfn] at h
          cases hsi : subIdx satEndPattern buf with
          | some j =>
              rw [hsi] at h
              cases h
              have := subIdx_bound hsi
              have hpat : satEndPattern.length = 13 := by decide
              simp [mu, stateRank, List.length_drop]
              omega
          | none => rw [hsi] at h; cases h
  case blockHeader =>
      simp only [step] at h
      by_cases h80 : buf.length < 80
      · rw [if_pos h80] at h; cases h
      · rw [if_neg h80] at h
        by_cases hall : (buf.take 80).all (fun b => b < 128)
        · rw [if_pos hall] at h
          cases hph : parseHeader ((buf.take 80).map Char.ofNat) with
          | none => simp only [hph] at h; cases h
          | some g =>
              simp only [hph] at h
              cases hmk : mkSegmentFromHeader g ((buf.take 80).map Char.ofNat) with
              | error e => simp only [hmk] at h; cases h
              | ok seg =>
                  simp only [hmk] at h
                  cases h
                  simp [mu, stateRank, List.length_drop]
                  omega
        · rw [if_neg hall] at h; cases h
  case blockBody =>
      cases cur with
      | none => simp only [step] at h; cases h
      | some seg =>
          simp only [step] at h
          by_cases hlen : buf.length < seg.length
          · rw [if_pos hlen] at h; cases h
          · rw [if_neg hlen] at h
            by_cases hv : seg.version == 2
            · rw [if_pos hv] at h
              cases hdz : decompress_zlib inflate (buf.take seg.length) 2 with
              | error e => rw [hdz] at h; cases h
              | ok data =>
                  rw [hdz] at h
                  cases h
                  simp [mu, stateRank, List.length_drop]
                  omega
            · rw [if_neg hv] at h
              cases h
              simp [mu, stateRank, List.length_drop]
              omega
  case validate =>
      cases cur with
      | none => simp only [step] at h; cases h
      | some seg =>
          simp only [step] at h
          by_cases h1 : seg.total_blocks ≤ 0 ∨ seg.block_number ≤ 0
          · rw [if_pos h1] at h
            cases h
            simp [mu, stateRank]
          · rw [if_neg h1] at h
            by_cases h2 : seg.total_blocks < seg.block_number
            · rw [if_pos h2] at h
              cases h
              simp [mu, stateRank]
            · rw [if_neg h2] at h
              by_cases h3 : seg.filename = "FILLFILE.TXT".toList
              · rw [if_pos h3] at h
                cases h
                simp [mu, stateRank]
              · rw [if_neg h3] at h
                cases hvc : validateSegmentChecksum inflate seg with
                | error e => rw [hvc] at h; cases h
                | ok pr =>
                    rw [hvc] at h
                    cases h
                    simp [mu, stateRank]

/-- `_process_buffer`: run state handlers until one reports no progress
(`stop`) or raises (`fail`); collect the frames emitted along the way. -/
def run (inflate : Inflate) (m : Machine) :
    Machine × List ProtocolFrame × Option PyExc :=
  match h : step inflate m with
  | .stop m1 => (m1, [], none)
  | .fail e m1 => (m1, [], some e)
  | .more m1 fs =>
      let r := run inflate m1
      (r.1, fs ++ r.2.1, r.2.2)
termination_by mu m
decreasing_by exact step_mu h

/-- Fuelled version of `run`; it reduces by computation (used to evaluate the
machine on concrete inputs) and agrees with `run` for sufficient fuel
(`runFuel_eq_run`). -/
def runFuel (inflate : Inflate) : Nat → Machine →
    Machine × List ProtocolFrame × Option PyExc
  | 0, m => (m, [], none)
  | fuel + 1, m =>
      match step inflate m with
      | .stop m1 => (m1, [], none)
      | .fail e m1 => (m1, [], some e)
      | .more m1 fs =>
          let r := runFuel inflate fuel m1
          (r.1, fs ++ r.2.1, r.2.2)

theorem runFuel_eq_run (inflate : Inflate) :
    ∀ (fuel : Nat) (m : Machine), mu m < fuel →
      runFuel inflate fuel m = run inflate m := by
  intro fuel
  induction fuel with
  | zero => intro m hm; omega
  | succ n ih =>
      intro m hm
      rw [run]
      cases hs : step inflate m with
      | stop m1 => simp [runFuel, hs]
      | fail e m1 => simp [runFuel, hs]
      | more m1 fs =>
          have hlt := step_mu hs
          simp only [runFuel, hs]
          rw [ih m1 (by omega)]

/-- `ProtocolDecoder.feed`: append the XOR-decoded data to the buffer, then
process. -/
def feed (inflate : Inflate) (m : Machine) (data : List Nat) :
    Machine × List ProtocolFrame × Option PyExc :=
  run inflate { m with buffer := m.buffer ++ xorDecode data }

/-- Calling `feed` once per chunk, in order; each call's frames are collected
in order and each call's raised exception (if any) is recorded (the caller —
`ConnectionProtocol.data_received` — catches it and keeps feeding). -/
def feedMany (inflate : Inflate) (m : Machine) :
    List (List Nat) → Machine × List ProtocolFrame × List (Option PyExc)
  | [] => (m, [], [])
  | c :: cs =>
      let r := feed inflate m c
      let rest := feedMany inflate r.1 cs
      (rest.1, r.2.1 ++ rest.2.1, r.2.2 :: rest.2.2)

/-! ### Chunk invariance of `feed`

`feed(a); feed(b)` emits the same frames as `feed(a ++ b)` provided no feed
raises.  The proof: progress steps and failing steps are unaffected by bytes
appended behind the buffer (`step_extend_more`, `step_extend_fail`), and a
quiescent machine re-started with more data behaves like the original buffer
extended with that data (the only nontrivial case is the RESYNC compaction,
`run_resync_restart`). -/

/-- Append decoded bytes behind a machine's buffer. -/
def extendM (m : Machine) (d : List Nat) : Machine :=
  ⟨m.state, m.buffer ++ d, m.current⟩

theorem take_append_of_le {α : Type} {n : Nat} {b : List α} (d : List α)
    (h : n ≤ b.length) : (b ++ d).take n = b.take n := by
  rw [List.take_append_eq_append_take, Nat.sub_eq_zero_of_le h]
  simp

theorem drop_append_of_le {α : Type} {n : Nat} {b : List α} (d : List α)
    (h : n ≤ b.length) : (b ++ d).drop n = b.drop n ++ d := by
  rw [List.drop_append_eq_append_drop, Nat.sub_eq_zero_of_le h]
  simp

theorem findSync_append_some {b : List Nat} {p : Nat}
    (h : findSync b = some p) (d : List Nat) : findSync (b ++ d) = some p := by
  induction b using findSync.induct generalizing p with
  | case1 b0 b1 b2 b3 b4 b5 rest hz =>
      rw [findSync, if_pos hz] at h
      cases h
      simp only [List.cons_append]
      rw [findSync, if_pos hz]
  | case2 b0 b1 b2 b3 b4 b5 rest hz ih =>
      rw [findSync, if_neg hz] at h
      cases hfs : findSync (b1 :: b2 :: b3 :: b4 :: b5 :: rest) with
      | none => rw [hfs] at h; cases h
      | some q =>
          rw [hfs] at h
          simp only [Option.map_some'] at h
          cases h
          have hext := ih hfs
          simp only [List.cons_append] at hext ⊢
          rw [findSync, if_neg hz, hext]
          rfl
  | case3 l hl =>
      rw [findSync.eq_def] at h
      rcases l with _ | ⟨a, _ | ⟨b, _ | ⟨c, _ | ⟨d', _ | ⟨e, _⟩⟩⟩⟩⟩ <;>
        simp_all

/-- Extending a buffer with no sync run: the search in the extension is the
search in the retained 5-byte suffix, shifted. -/
theorem findSync_none_append {b : List Nat} (hb : findSync b = none)
    (d : List Nat) :
    findSync (b ++ d) =
      (findSync (b.drop (b.length - 5) ++ d)).map (· + (b.length - 5)) := by
  induction b using findSync.induct with
  | case1 b0 b1 b2 b3 b4 b5 rest hz =>
      rw [findSync, if_pos hz] at hb
      cases hb
  | case2 b0 b1 b2 b3 b4 b5 rest hz ih =>
      rw [findSync, if_neg hz] at hb
      have htail : findSync (b1 :: b2 :: b3 :: b4 :: b5 :: rest) = none := by
        cases hfs : findSync (b1 :: b2 :: b3 :: b4 :: b5 :: rest) with
        | none => rfl
        | some q => rw [hfs] at hb; cases hb
      have hext := ih htail
      simp only [List.cons_append]
      rw [findSync, if_neg hz]
      simp only [List.cons_append] at hext
      rw [hext]
      have hlen :
          (b0 :: b1 :: b2 :: b3 :: b4 :: b5 :: rest).length - 5 =
            ((b1 :: b2 :: b3 :: b4 :: b5 :: rest).length - 5) + 1 := by
        simp
      rw [hlen]
      have hdrop :
          (b0 :: b1 :: b2 :: b3 :: b4 :: b5 :: rest).drop
              (((b1 :: b2 :: b3 :: b4 :: b5 :: rest).length - 5) + 1) =
            (b1 :: b2 :: b3 :: b4 :: b5 :: rest).drop
              ((b1 :: b2 :: b3 :: b4 :: b5 :: rest).length - 5) := by
        simp [List.drop_succ_cons]
      rw [hdrop]
      cases findSync
          ((b1 :: b2 :: b3 :: b4 :: b5 :: rest).drop
              ((b1 :: b2 :: b3 :: b4 :: b5 :: rest).length - 5) ++ d) with
      | none => rfl
      | some q => simp [Option.map_some']; omega
  | case3 l hl =>
      have hsmall : l.length ≤ 5 := by
        rcases l with _ | ⟨a, _ | ⟨b, _ | ⟨c, _ | ⟨d', _ | ⟨e, _ | ⟨f, r⟩⟩⟩⟩⟩⟩ <;>
          first
          | exact (hl a b c d' e f r rfl).elim
          | simp
      have hz : l.length - 5 = 0 := by omega
      rw [hz]
      simp only [List.drop_zero]
      cases findSync (l ++ d) with
      | none => rfl
      | some q => simp [Option.map_some']

theorem findNull_append_some {b : List Nat} {i : Nat}
    (h : findNull b = some i) (d : List Nat) : findNull (b ++ d) = some i := by
  induction b generalizing i with
  | nil => cases h
  | cons x xs ih =>
      rw [findNull] at h
      by_cases hx : x == 0
      · rw [if_pos hx] at h
        cases h
        simp only [List.cons_append]
        rw [findNull, if_pos hx]
      · rw [if_neg hx] at h
        cases hfn : findNull xs with
        | none => rw [hfn] at h; cases h
        | some q =>
            rw [hfn] at h
            simp only [Option.map_some'] at h
            cases h
            simp only [List.cons_append]
            rw [findNull, if_neg hx, ih hfn]
            rfl

theorem findNull_none_not_mem {b : List Nat} (h : findNull b = none) :
    (0 : Nat) ∉ b := by
  induction b with
  | nil => simp
  | cons x xs ih =>
      rw [findNull] at h
      by_cases hx : x == 0
      · rw [if_pos hx] at h; cases h
      · rw [if_neg hx] at h
        cases hfn : findNull xs with
        | none =>
            simp only [List.mem_cons]
            push_neg
            exact ⟨fun he => hx (by simp [he]), ih hfn⟩
        | some q => rw [hfn] at h; cases h

theorem subIdx_some_prefix {α : Type} [BEq α] [LawfulBEq α]
    {pat l : List α} {j : Nat} (h : subIdx pat l = some j) :
    pat.isPrefixOf (l.drop j) := by
  induction l generalizing j with
  | nil =>
      rw [subIdx] at h
      by_cases hp : pat.isEmpty
      · rw [if_pos hp] at h
        cases h
        simp_all [List.isEmpty_iff, List.isPrefixOf_iff_prefix]
      · rw [if_neg hp] at h; cases h
  | cons x xs ih =>
      rw [subIdx] at h
      by_cases hp : pat.isPrefixOf (x :: xs)
      · rw [if_pos hp] at h
        cases h
        simpa using hp
      · rw [if_neg hp] at h
        cases hs : subIdx pat xs with
        | none => rw [hs] at h; cases h
        | some q =>
            rw [hs] at h
            simp only [Option.map_some'] at h
            cases h
            simpa [List.drop_succ_cons] using ih hs

/-- In the SERVER_LIST state with no null byte buffered, the
`\SatServers\\0` fallback cannot fire: the sentinel contains a null byte. -/
theorem subIdx_satEnd_of_no_null {b : List Nat}
    (hn : findNull b = none) : subIdx satEndPattern b = none := by
  cases hs : subIdx satEndPattern b with
  | none => rfl
  | some j =>
      exfalso
      have hpre := subIdx_some_prefix hs
      have h0pat : (0 : Nat) ∈ satEndPattern := by decide
      have h0 : (0 : Nat) ∈ b.drop j :=
        (List.isPrefixOf_iff_prefix.mp hpre).mem h0pat
      exact findNull_none_not_mem hn (List.mem_of_mem_drop h0)

theorem isDataBlockHeader_take {l : List Nat} {n : Nat} (hn : 3 ≤ n) :
    isDataBlockHeader (l.take n) = isDataBlockHeader l := by
  obtain ⟨n3, rfl⟩ : ∃ k, n = k + 3 := ⟨n - 3, by omega⟩
  rcases l with _ | ⟨a, _ | ⟨b, _ | ⟨c, t⟩⟩⟩ <;>
    simp [isDataBlockHeader, List.take_succ_cons]

theorem isServerListHeader_take {l : List Nat} {n : Nat} (hn : 3 ≤ n) :
    isServerListHeader (l.take n) = isServerListHeader l := by
  obtain ⟨n3, rfl⟩ : ∃ k, n = k + 3 := ⟨n - 3, by omega⟩
  rcases l with _ | ⟨a, _ | ⟨b, _ | ⟨c, t⟩⟩⟩ <;>
    simp [isServerListHeader, List.take_succ_cons]

theorem isDataBlockHeader_append {l : List Nat} (d : List Nat)
    (h : 3 ≤ l.length) : isDataBlockHeader (l ++ d) = isDataBlockHeader l := by
  rcases l with _ | ⟨a, _ | ⟨b, _ | ⟨c, t⟩⟩⟩ <;> simp_all [isDataBlockHeader]

theorem isServerListHeader_append {l : List Nat} (d : List Nat)
    (h : 3 ≤ l.length) : isServerListHeader (l ++ d) = isServerListHeader l := by
  rcases l with _ | ⟨a, _ | ⟨b, _ | ⟨c, t⟩⟩⟩ <;> simp_all [isServerListHeader]

/-- Progress steps are unaffected by bytes appended behind the buffer. -/
theorem step_extend_more {inflate : Inflate} {m m' : Machine}
    {fs : List ProtocolFrame} (h : step inflate m = .more m' fs)
    (d : List Nat) : step inflate (extendM m d) = .more (extendM m' d) fs := by
  obtain ⟨st, buf, cur⟩ := m
  have hlapp : (buf ++ d).length = buf.length + d.length := by simp
  cases st
  case resync =>
      simp only [step] at h
      by_cases h6 : buf.length < 6
      · rw [if_pos h6] at h; cases h
      · rw [if_neg h6] at h
        cases hfs : findSync buf with
        | some p =>
            rw [hfs] at h
            cases h
            have hb := findSync_bound hfs
            simp only [extendM, step]
            rw [if_neg (show ¬(buf ++ d).length < 6 by omega)]
            simp only [findSync_append_some hfs d]
            rw [drop_append_of_le d (by omega)]
        | none =>
            rw [hfs] at h
            by_cases hgt : 6 < buf.length
            · rw [if_pos hgt] at h; cases h
            · rw [if_neg hgt] at h; cases h
  case startFrame =>
      simp only [step] at h
      by_cases he : (buf.dropWhile (fun b => b == 0)).isEmpty
      · rw [if_pos he] at h; cases h
      · rw [if_neg he] at h
        cases h
        simp only [extendM, step]
        rw [List.dropWhile_append, if_neg he]
        rw [if_neg (by simp_all [List.isEmpty_iff])]
  case frameType =>
      simp only [step] at h
      by_cases h10 : buf.length < 10
      · rw [if_pos h10] at h; cases h
      · rw [if_neg h10] at h
        have hdb : isDataBlockHeader ((buf ++ d).take (min 20 (buf ++ d).length)) =
            isDataBlockHeader (buf.take (min 20 buf.length)) := by
          rw [isDataBlockHeader_take (by omega),
            isDataBlockHeader_take (by omega),
            isDataBlockHeader_append d (by omega)]
        have hsl : isServerListHeader ((buf ++ d).take (min 20 (buf ++ d).length)) =
            isServerListHeader (buf.take (min 20 buf.length)) := by
          rw [isServerListHeader_take (by omega),
            isServerListHeader_take (by omega),
            isServerListHeader_append d (by omega)]
        by_cases hdb0 : isDataBlockHeader (buf.take (min 20 buf.length))
        · rw [if_pos hdb0] at h
          cases h
          simp only [extendM, step]
          rw [if_neg (by omega), hdb, if_pos hdb0]
        · rw [if_neg hdb0] at h
          by_cases hsl0 : isServerListHeader (buf.take (min 20 buf.length))
          · rw [if_pos hsl0] at h
            cases h
            simp only [extendM, step]
            rw [if_neg (by omega), hdb, if_neg hdb0, hsl, if_pos hsl0]
          · rw [if_neg hsl0] at h
            cases h
            simp only [extendM, step]
            rw [if_neg (by omega), hdb, if_neg hdb0, hsl, if_neg hsl0]
            rw [drop_append_of_le d (by omega)]
  case serverList =>
      simp only [step] at h
      cases hfn : findNull buf with
      | some i =>
          rw [hfn] at h
          cases h
          have hb := findNull_bound hfn
          simp only [extendM, step]
          simp only [findNull_append_some hfn d]
          rw [drop_append_of_le d (by omega), take_append_of_le d (by omega)]
      | none =>
          rw [hfn] at h
          rw [subIdx_satEnd_of_no_null hfn] at h
          cases h
  case blockHeader =>
      simp only [step] at h
      by_cases h80 : buf.length < 80
      · rw [if_pos h80] at h; cases h
      · rw [if_neg h80] at h
        have htk : (buf ++ d).take 80 = buf.take 80 :=
          take_append_of_le d (by omega)
        have hdr : (buf ++ d).drop 80 = buf.drop 80 ++ d :=
          drop_append_of_le d (by omega)
        by_cases hall : (buf.take 80).all (fun b => b < 128)
        · rw [if_pos hall] at h
          cases hph : parseHeader ((buf.take 80).map Char.ofNat) with
          | none => simp only [hph] at h; cases h
          | some g =>
              simp only [hph] at h
              cases hmk : mkSegmentFromHeader g ((buf.take 80).map Char.ofNat) with
              | error e => simp only [hmk] at h; cases h
              | ok seg =>
                  simp only [hmk] at h
                  cases h
                  simp only [extendM, step]
                  rw [if_neg (by omega), htk, if_pos hall]
                  simp only [hph, hmk, hdr]
        · rw [if_neg hall] at h; cases h
  case blockBody =>
      cases cur with
      | none => simp only [step] at h; cases h
      | some seg =>
          simp only [step] at h
          by_cases hlen : buf.length < seg.length
          · rw [if_pos hlen] at h; cases h
          · rw [if_neg hlen] at h
            have htk : (buf ++ d).take seg.length = buf.take seg.length :=
              take_append_of_le d (by omega)
            have hdr : (buf ++ d).drop seg.length = buf.drop seg.length ++ d :=
              drop_append_of_le d (by omega)
            by_cases hv : seg.version == 2
            · rw [if_pos hv] at h
              cases hdz : decompress_zlib inflate (buf.take seg.length) 2 with
              | error e => rw [hdz] at h; cases h
              | ok data =>
                  rw [hdz] at h
                  cases h
                  simp only [extendM, step]
                  rw [if_neg (by omega), if_pos hv, htk, hdz, hdr]
            · rw [if_neg hv] at h
              cases h
              simp only [extendM, step]
              rw [if_neg (by omega), if_neg hv]
              simp only [htk, hdr]
  case validate =>
      cases cur with
      | none => simp only [step] at h; cases h
      | some seg =>
          simp only [step] at h
          by_cases h1 : seg.total_blocks ≤ 0 ∨ seg.block_number ≤ 0
          · rw [if_pos h1] at h
            cases h
            simp only [extendM, step]
            rw [if_pos h1]
          · rw [if_neg h1] at h
            by_cases h2 : seg.total_blocks < seg.block_number
            · rw [if_pos h2] at h
              cases h
              simp only [extendM, step]
              rw [if_neg h1, if_pos h2]
            · rw [if_neg h2] at h
              by_cases h3 : seg.filename = "FILLFILE.TXT".toList
              · rw [if_pos h3] at h
                cases h
                simp only [extendM, step]
                rw [if_neg h1, if_neg h2, if_pos h3]
              · rw [if_neg h3] at h
                cases hvc : validateSegmentChecksum inflate seg with
                | error e => rw [hvc] at h; cases h
                | ok pr =>
                    rw [hvc] at h
                    cases h
                    simp only [extendM, step]
                    rw [if_neg h1, if_neg h2, if_neg h3, hvc]

/-- Failing steps are unaffected by bytes appended behind the buffer, and
fail identically. -/
theorem step_extend_fail {inflate : Inflate} {m m' : Machine} {e : PyExc}
    (h : step inflate m = .fail e m') (d : List Nat) :
    step inflate (extendM m d) = .fail e (extendM m' d) := by
  obtain ⟨st, buf, cur⟩ := m
  have hlapp : (buf ++ d).length = buf.length + d.length := by simp
  cases st
  case resync =>
      simp only [step] at h
      by_cases h6 : buf.length < 6
      · rw [if_pos h6] at h; cases h
      · rw [if_neg h6] at h
        cases hfs : findSync buf with
        | some p => rw [hfs] at h; cases h
        | none =>
            rw [hfs] at h
            by_cases hgt : 6 < buf.length
            · rw [if_pos hgt] at h; cases h
            · rw [if_neg hgt] at h; cases h
  case startFrame =>
      simp only [step] at h
      by_cases he : (buf.dropWhile (fun b => b == 0)).isEmpty
      · rw [if_pos he] at h; cases h
      · rw [if_neg he] at h; cases h
  case frameType =>
      simp only [step] at h
      by_cases h10 : buf.length < 10
      · rw [if_pos h10] at h; cases h
      · rw [if_neg h10] at h
        by_cases hdb0 : isDataBlockHeader (buf.take (min 20 buf.length))
        · rw [if_pos hdb0] at h; cases h
        · rw [if_neg hdb0] at h
          by_cases hsl0 : isServerListHeader (buf.take (min 20 buf.length))
          · rw [if_pos hsl0] at h; cases h
          · rw [if_neg hsl0] at h; cases h
  case serverList =>
      simp only [step] at h
      cases hfn : findNull buf with
      | some i => rw [hfn] at h; cases h
      | none =>
          rw [hfn] at h
          rw [subIdx_satEnd_of_no_null hfn] at h
          cases h
  case blockHeader =>
      simp only [step] at h
      by_cases h80 : buf.length < 80
      · rw [if_pos h80] at h; cases h
      · rw [if_neg h80] at h
        have htk : (buf ++ d).take 80 = buf.take 80 :=
          take_append_of_le d (by omega)
        have hdr : (buf ++ d).drop 80 = buf.drop 80 ++ d :=
          drop_append_of_le d (by omega)
        by_cases hall : (buf.take 80).all (fun b => b < 128)
        · rw [if_pos hall] at h
          cases hph : parseHeader ((buf.take 80).map Char.ofNat) with
          | none =>
              simp only [hph] at h
              cases h
              simp only [extendM, step]
              rw [if_neg (by omega), htk, if_pos hall]
              simp only [hph, hdr]
          | some g =>
              simp only [hph] at h
              cases hmk : mkSegmentFromHeader g ((buf.take 80).map Char.ofNat) with
              | error e2 =>
                  simp only [hmk] at h
                  cases h
                  simp only [extendM, step]
                  rw [if_neg (by omega), htk, if_pos hall]
                  simp only [hph, hmk, hdr]
              | ok seg => simp only [hmk] at h; cases h
        · rw [if_neg hall] at h
          cases h
          simp only [extendM, step]
          rw [if_neg (by omega), htk, if_neg hall]
          simp only [hdr]
  case blockBody =>
      cases cur with
      | none =>
          simp only [step] at h
          cases h
          simp only [extendM, step]
      | some seg =>
          simp only [step] at h
          by_cases hlen : buf.length < seg.length
          · rw [if_pos hlen] at h; cases h
          · rw [if_neg hlen] at h
            have htk : (buf ++ d).take seg.length = buf.take seg.length :=
              take_append_of_le d (by omega)
            have hdr : (buf ++ d).drop seg.length = buf.drop seg.length ++ d :=
              drop_append_of_le d (by omega)
            by_cases hv : seg.version == 2
            · rw [if_pos hv] at h
              cases hdz : decompress_zlib inflate (buf.take seg.length) 2 with
              | error e2 =>
                  rw [hdz] at h
                  cases h
                  simp only [extendM, step]
                  rw [if_neg (by omega), if_pos hv, htk, hdz, hdr]
              | ok data => rw [hdz] at h; cases h
            · rw [if_neg hv] at h; cases h
  case validate =>
      cases cur with
      | none =>
          simp only [step] at h
          cases h
          simp only [extendM, step]
      | some seg =>
          simp only [step] at h
          by_cases h1 : seg.total_blocks ≤ 0 ∨ seg.block_number ≤ 0
          · rw [if_pos h1] at h; cases h
          · rw [if_neg h1] at h
            by_cases h2 : seg.total_blocks < seg.block_number
            · rw [if_pos h2] at h; cases h
            · rw [if_neg h2] at h
              by_cases h3 : seg.filename = "FILLFILE.TXT".toList
              · rw [if_pos h3] at h; cases h
              · rw [if_neg h3] at h
                cases hvc : validateSegmentChecksum inflate seg with
                | error e2 =>
                    rw [hvc] at h
                    cases h
                    simp only [extendM, step]
                    rw [if_neg h1, if_neg h2, if_neg h3, hvc]
                | ok pr => rw [hvc] at h; cases h

theorem run_stop_elim {inflate : Inflate} {m m1 : Machine}
    (h : step inflate m = .stop m1) : run inflate m = (m1, [], none) := by
  rw [run]
  split
  next m2 heq => rw [heq] at h; cases h; rfl
  next e2 m2 heq => rw [heq] at h; cases h
  next m2 fs2 heq => rw [heq] at h; cases h

theorem run_fail_elim {inflate : Inflate} {m m1 : Machine} {e : PyExc}
    (h : step inflate m = .fail e m1) : run inflate m = (m1, [], some e) := by
  rw [run]
  split
  next m2 heq => rw [heq] at h; cases h
  next e2 m2 heq => rw [heq] at h; cases h; rfl
  next m2 fs2 heq => rw [heq] at h; cases h

theorem run_more_elim {inflate : Inflate} {m m1 : Machine}
    {fs : List ProtocolFrame} (h : step inflate m = .more m1 fs) :
    run inflate m =
      ((run inflate m1).1, fs ++ (run inflate m1).2.1, (run inflate m1).2.2) := by
  rw [run]
  split
  next m2 heq => rw [heq] at h; cases h
  next e2 m2 heq => rw [heq] at h; cases h
  next m2 fs2 heq => rw [heq] at h; cases h; rfl

theorem run_congr {inflate : Inflate} {x y : Machine}
    (h : step inflate x = step inflate y) : run inflate x = run inflate y := by
  cases hs : step inflate y with
  | stop m1 => rw [run_stop_elim (h.trans hs), run_stop_elim hs]
  | fail e m1 => rw [run_fail_elim (h.trans hs), run_fail_elim hs]
  | more m1 fs => rw [run_more_elim (h.trans hs), run_more_elim hs]

/-- Restarting a quiescent RESYNC machine: extending the compacted buffer
(last 5 bytes) or the original one with the same data yields the same frames
and the same error. -/
theorem run_resync_restart (inflate : Inflate) {b : List Nat}
    (cur : Option QBTSegment) (d : List Nat)
    (hns : findSync b = none) (hlen : 6 < b.length) :
    (run inflate ⟨.resync, b ++ d, cur⟩).2 =
      (run inflate ⟨.resync, b.drop (b.length - 5) ++ d, cur⟩).2 := by
  have hkey := findSync_none_append hns d
  have hl1 : (b ++ d).length = b.length + d.length := by simp
  have hl2 : (b.drop (b.length - 5) ++ d).length = 5 + d.length := by
    simp [List.length_drop]
    omega
  cases hA : findSync (b.drop (b.length - 5) ++ d) with
  | none =>
      have hBD : findSync (b ++ d) = none := by rw [hkey, hA]; rfl
      have hstepA : step inflate ⟨.resync, b ++ d, cur⟩ =
          .stop ⟨.resync, (b ++ d).drop ((b ++ d).length - 5), cur⟩ := by
        simp only [step]
        rw [if_neg (show ¬(b ++ d).length < 6 by omega)]
        simp only [hBD]
        rw [if_pos (show 6 < (b ++ d).length by omega)]
      rw [run_stop_elim hstepA]
      by_cases hd6 : 6 < 5 + d.length
      · have hstepB : step inflate ⟨.resync, b.drop (b.length - 5) ++ d, cur⟩ =
            .stop ⟨.resync, (b.drop (b.length - 5) ++ d).drop
              ((b.drop (b.length - 5) ++ d).length - 5), cur⟩ := by
          simp only [step]
          rw [if_neg (show ¬(b.drop (b.length - 5) ++ d).length < 6 by omega)]
          simp only [hA]
          rw [if_pos (show 6 < (b.drop (b.length - 5) ++ d).length by omega)]
        rw [run_stop_elim hstepB]
      · by_cases hd5 : (b.drop (b.length - 5) ++ d).length < 6
        · have hstepB : step inflate ⟨.resync, b.drop (b.length - 5) ++ d, cur⟩ =
              .stop ⟨.resync, b.drop (b.length - 5) ++ d, cur⟩ := by
            simp only [step]
            rw [if_pos hd5]
          rw [run_stop_elim hstepB]
        · have hstepB : step inflate ⟨.resync, b.drop (b.length - 5) ++ d, cur⟩ =
              .stop ⟨.resync, b.drop (b.length - 5) ++ d, cur⟩ := by
            simp only [step]
            rw [if_neg hd5]
            simp only [hA]
            rw [if_neg (show ¬6 < (b.drop (b.length - 5) ++ d).length by omega)]
          rw [run_stop_elim hstepB]
  | some q =>
      have hBD : findSync (b ++ d) = some (q + (b.length - 5)) := by
        rw [hkey, hA]; rfl
      have hqb := findSync_bound hA
      have hstepA : step inflate ⟨.resync, b ++ d, cur⟩ =
          .more ⟨.startFrame, (b ++ d).drop (q + (b.length - 5) + 6), cur⟩ [] := by
        simp only [step]
        rw [if_neg (show ¬(b ++ d).length < 6 by omega)]
        simp only [hBD]
      have hstepB : step inflate ⟨.resync, b.drop (b.length - 5) ++ d, cur⟩ =
          .more ⟨.startFrame, (b.drop (b.length - 5) ++ d).drop (q + 6), cur⟩ [] := by
        simp only [step]
        rw [if_neg (show ¬(b.drop (b.length - 5) ++ d).length < 6 by omega)]
        simp only [hA]
      have hbd : b.drop (b.length - 5) ++ d = (b ++ d).drop (b.length - 5) :=
        (drop_append_of_le d (show b.length - 5 ≤ b.length by omega)).symm
      have hbuf : (b ++ d).drop (q + (b.length - 5) + 6) =
          (b.drop (b.length - 5) ++ d).drop (q + 6) := by
        rw [hbd, List.drop_drop]
        congr 1
        omega
      rw [run_more_elim hstepA, run_more_elim hstepB, hbuf]

/-- A no-progress step leaves the machine unchanged except for the RESYNC
compaction (keep the last 5 bytes) and the START_FRAME null skip (which can
consume a buffer consisting entirely of null bytes). -/
theorem step_stop_cases {inflate : Inflate} {m m1 : Machine}
    (h : step inflate m = .stop m1) :
    m1 = m ∨
    (m.state = .resync ∧ findSync m.buffer = none ∧ 6 < m.buffer.length ∧
      m1 = ⟨.resync, m.buffer.drop (m.buffer.length - 5), m.current⟩) ∨
    (m.state = .startFrame ∧ m.buffer.dropWhile (fun b => b == 0) = [] ∧
      m1 = ⟨.startFrame, [], m.current⟩) := by
  obtain ⟨st, buf, cur⟩ := m
  cases st
  case resync =>
      simp only [step] at h
      by_cases h6 : buf.length < 6
      · rw [if_pos h6] at h; cases h; left; rfl
      · rw [if_neg h6] at h
        cases hfs : findSync buf with
        | some p => rw [hfs] at h; cases h
        | none =>
            rw [hfs] at h
            by_cases hgt : 6 < buf.length
            · rw [if_pos hgt] at h
              cases h
              right; left
              refine ⟨rfl, ?_, hgt, rfl⟩
              first
              | exact hfs
              | rfl
            · rw [if_neg hgt] at h; cases h; left; rfl
  case startFrame =>
      simp only [step] at h
      by_cases he : (buf.dropWhile (fun b => b == 0)).isEmpty
      · rw [if_pos he] at h
        cases h
        right; right
        have hnil : buf.dropWhile (fun b => b == 0) = [] :=
          List.isEmpty_iff.mp he
        exact ⟨rfl, hnil, by rw [hnil]⟩
      · rw [if_neg he] at h; cases h
  case frameType =>
      simp only [step] at h
      by_cases h10 : buf.length < 10
      · rw [if_pos h10] at h; cases h; left; rfl
      · rw [if_neg h10] at h
        by_cases hdb0 : isDataBlockHeader (buf.take (min 20 buf.length))
        · rw [if_pos hdb0] at h; cases h
        · rw [if_neg hdb0] at h
          by_cases hsl0 : isServerListHeader (buf.take (min 20 buf.length))
          · rw [if_pos hsl0] at h; cases h
          · rw [if_neg hsl0] at h; cases h
  case serverList =>
      simp only [step] at h
      cases hfn : findNull buf with
      | some i => rw [hfn] at h; cases h
      | none =>
          rw [hfn] at h
          rw [subIdx_satEnd_of_no_null hfn] at h
          cases h
          left; rfl
  case blockHeader =>
      simp only [step] at h
      by_cases h80 : buf.length < 80
      · rw [if_pos h80] at h; cases h; left; rfl
      · rw [if_neg h80] at h
        by_cases hall : (buf.take 80).all (fun b => b < 128)
        · rw [if_pos hall] at h
          cases hph : parseHeader ((buf.take 80).map Char.ofNat) with
          | none => simp only [hph] at h; cases h
          | some g =>
              simp only [hph] at h
              cases hmk : mkSegmentFromHeader g ((buf.take 80).map Char.ofNat) with
              | error e => simp only [hmk] at h; cases h
              | ok seg => simp only [hmk] at h; cases h
        · rw [if_neg hall] at h; cases h
  case blockBody =>
      cases cur with
      | none => simp only [step] at h; cases h
      | some seg =>
          simp only [step] at h
          by_cases hlen : buf.length < seg.length
          · rw [if_pos hlen] at h; cases h; left; rfl
          · rw [if_neg hlen] at h
            by_cases hv : seg.version == 2
            · rw [if_pos hv] at h
              cases hdz : decompress_zlib inflate (buf.take seg.length) 2 with
              | error e => rw [hdz] at h; cases h
              | ok data => rw [hdz] at h; cases h
            · rw [if_neg hv] at h; cases h
  case validate =>
      cases cur with
      | none => simp only [step] at h; cases h
      | some seg =>
          simp only [step] at h
          by_cases h1 : seg.total_blocks ≤ 0 ∨ seg.block_number ≤ 0
          · rw [if_pos h1] at h; cases h
          · rw [if_neg h1] at h
            by_cases h2 : seg.total_blocks < seg.block_number
            · rw [if_pos h2] at h; cases h
            · rw [if_neg h2] at h
              by_cases h3 : seg.filename = "FILLFILE.TXT".toList
              · rw [if_pos h3] at h; cases h
              · rw [if_neg h3] at h
                cases hvc : validateSegmentChecksum inflate seg with
                | error e => rw [hvc] at h; cases h
                | ok pr => rw [hvc] at h; cases h

/-- Restarting any quiescent machine with appended data yields the same
frames and error as extending the original. -/
theorem run_extend_stop {inflate : Inflate} {m m1 : Machine}
    (h : step inflate m = .stop m1) (d : List Nat) :
    (run inflate (extendM m d)).2 = (run inflate (extendM m1 d)).2 := by
  rcases step_stop_cases h with heq | ⟨hst, hns, hlen, heq⟩ | ⟨hst, hdw, heq⟩
  · rw [heq]
  · obtain ⟨st, buf, cur⟩ := m
    cases hst
    cases heq
    exact run_resync_restart inflate cur d hns hlen
  · obtain ⟨st, buf, cur⟩ := m
    cases hst
    have hdw2 : buf.dropWhile (fun b => b == 0) = [] := hdw
    cases heq
    have hbufeq : List.dropWhile (fun b => b == 0) (buf ++ d) =
        List.dropWhile (fun b => b == 0) d := by
      rw [List.dropWhile_append, if_pos (by simp [hdw2])]
    have hsteps : step inflate (extendM ⟨.startFrame, buf, cur⟩ d) =
        step inflate (extendM ⟨.startFrame, [], cur⟩ d) := by
      simp only [extendM, step, List.nil_append, hbufeq]
    rw [run_congr hsteps]

/-- A run that raises behaves identically after buffer extension: the same
frames are emitted, the same exception is raised, and the machine is the
failing machine with the extra bytes still buffered. -/
theorem run_fail_extend_aux {inflate : Inflate} :
    ∀ (n : Nat) (m m1 : Machine) (F : List ProtocolFrame) (e : PyExc),
      mu m < n → run inflate m = (m1, F, some e) →
      ∀ d, run inflate (extendM m d) = (extendM m1 d, F, some e) := by
  intro n
  induction n with
  | zero => intro m m1 F e hlt; omega
  | succ k ih =>
      intro m m1 F e hlt hrun d
      cases hs : step inflate m with
      | stop m2 =>
          rw [run_stop_elim hs] at hrun
          simp at hrun
      | fail e2 m2 =>
          rw [run_fail_elim hs] at hrun
          simp only [Prod.mk.injEq] at hrun
          obtain ⟨h1, h2, h3⟩ := hrun
          subst h1
          subst h2
          have he := Option.some.inj h3
          subst he
          exact run_fail_elim (step_extend_fail hs d)
      | more m2 fs =>
          rw [run_more_elim hs] at hrun
          cases hr : run inflate m2 with
          | mk a r2 =>
              cases r2 with
              | mk F2 e2 =>
                  rw [hr] at hrun
                  simp only [Prod.mk.injEq] at hrun
                  obtain ⟨h1, h2, h3⟩ := hrun
                  subst h3
                  have hmulf := step_mu hs
                  have ihm := ih m2 a F2 e (by omega) hr d
                  rw [run_more_elim (step_extend_more hs d), ihm]
                  simp only [h1, h2]

/-- A clean run extended with more data: the original frames come first, the
continuation behaves as the final machine extended with the data. -/
theorem run_extend_aux {inflate : Inflate} :
    ∀ (n : Nat) (m m1 : Machine) (F : List ProtocolFrame),
      mu m < n → run inflate m = (m1, F, none) →
      ∀ d, (run inflate (extendM m d)).2 =
        (F ++ (run inflate (extendM m1 d)).2.1,
         (run inflate (extendM m1 d)).2.2) := by
  intro n
  induction n with
  | zero => intro m m1 F hlt; omega
  | succ k ih =>
      intro m m1 F hlt hrun d
      cases hs : step inflate m with
      | stop m2 =>
          rw [run_stop_elim hs] at hrun
          simp only [Prod.mk.injEq] at hrun
          obtain ⟨h1, h2, h3⟩ := hrun
          cases h1
          cases h2
          rw [run_extend_stop hs d]
          simp
      | fail e2 m2 =>
          rw [run_fail_elim hs] at hrun
          simp at hrun
      | more m2 fs =>
          rw [run_more_elim hs] at hrun
          cases hr : run inflate m2 with
          | mk a r2 =>
              cases r2 with
              | mk F2 e2 =>
                  rw [hr] at hrun
                  simp only [Prod.mk.injEq] at hrun
                  obtain ⟨h1, h2, h3⟩ := hrun
                  cases h1
                  cases h2
                  cases h3
                  have hmulf := step_mu hs
                  have ihm := ih m2 m1 F2 (by omega) hr d
                  rw [run_more_elim (step_extend_more hs d)]
                  have ihm1 : (run inflate (extendM m2 d)).2.1 =
                      F2 ++ (run inflate (extendM m1 d)).2.1 := by
                    rw [ihm]
                  have ihm2 : (run inflate (extendM m2 d)).2.2 =
                      (run inflate (extendM m1 d)).2.2 := by
                    rw [ihm]
                  simp only [ihm1, ihm2, List.append_assoc]

/-- After a clean run, the machine is truly quiescent: stepping it again is a
no-op. -/
theorem run_none_quiet_aux {inflate : Inflate} :
    ∀ (n : Nat) (m m1 : Machine) (F : List ProtocolFrame),
      mu m < n → run inflate m = (m1, F, none) →
      step inflate m1 = .stop m1 := by
  intro n
  induction n with
  | zero => intro m m1 F hlt; omega
  | succ k ih =>
      intro m m1 F hlt hrun
      cases hs : step inflate m with
      | stop m2 =>
          rw [run_stop_elim hs] at hrun
          simp only [Prod.mk.injEq] at hrun
          obtain ⟨h1, h2, h3⟩ := hrun
          cases h1
          rcases step_stop_cases hs with heq | ⟨hst, hns, hlen, heq⟩ |
              ⟨hst, hdw, heq⟩
          · rw [heq] at hs ⊢
            exact hs
          · obtain ⟨st, buf, cur⟩ := m
            cases hst
            cases heq
            simp only [step]
            rw [if_pos]
            simp only [List.length_drop]
            omega
          · obtain ⟨st, buf, cur⟩ := m
            cases hst
            cases heq
            simp [step, List.dropWhile]
      | fail e2 m2 =>
          rw [run_fail_elim hs] at hrun
          simp at hrun
      | more m2 fs =>
          rw [run_more_elim hs] at hrun
          cases hr : run inflate m2 with
          | mk a r2 =>
              cases r2 with
              | mk F2 e2 =>
                  rw [hr] at hrun
                  simp only [Prod.mk.injEq] at hrun
                  obtain ⟨h1, h2, h3⟩ := hrun
                  cases h1
                  cases h3
                  have hmulf := step_mu hs
                  exact ih m2 m1 F2 (by omega) hr

theorem feed_eq_run (inflate : Inflate) (m : Machine) (data : List Nat) :
    feed inflate m data = run inflate (extendM m (xorDecode data)) := rfl

/-- Chunked feeding against one-shot feeding, from any quiescent machine:
when the one-shot feed raises nothing, the chunked feeds raise nothing and
emit the same frames in the same order. -/
theorem feedMany_flatten {inflate : Inflate} :
    ∀ (chunks : List (List Nat)) (m : Machine),
      step inflate m = .stop m →
      (feed inflate m chunks.flatten).2.2 = none →
      (feedMany inflate m chunks).2.1 = (feed inflate m chunks.flatten).2.1 ∧
      ∀ e ∈ (feedMany inflate m chunks).2.2, e = none := by
  intro chunks
  induction chunks with
  | nil =>
      intro m hq _herr
      have hm : extendM m (xorDecode ([] : List (List Nat)).flatten) = m := by
        simp [extendM, xorDecode]
      constructor
      · rw [feedMany, feed_eq_run, hm, run_stop_elim hq]
      · rw [feedMany]
        intro e he
        simp at he
  | cons c cs ih =>
      intro m hq herr
      have hflat : (c :: cs).flatten = c ++ cs.flatten := rfl
      have hx : xorDecode (c ++ cs.flatten) =
          xorDecode c ++ xorDecode cs.flatten := by
        simp [xorDecode]
      have hsplit : extendM m (xorDecode ((c :: cs).flatten)) =
          extendM (extendM m (xorDecode c)) (xorDecode cs.flatten) := by
        rw [hflat, hx]
        simp [extendM, List.append_assoc]
      cases hA : run inflate (extendM m (xorDecode c)) with
      | mk m1 r =>
          cases r with
          | mk F1 e1 =>
              have hfc : feed inflate m c = (m1, F1, e1) := hA
              cases e1 with
              | some ex =>
                  exfalso
                  have hfail := run_fail_extend_aux
                    (mu (extendM m (xorDecode c)) + 1)
                    (extendM m (xorDecode c)) m1 F1 ex
                    (Nat.lt_succ_self _) hA (xorDecode cs.flatten)
                  rw [feed_eq_run, hsplit, hfail] at herr
                  simp at herr
              | none =>
                  have hext := run_extend_aux
                    (mu (extendM m (xorDecode c)) + 1)
                    (extendM m (xorDecode c)) m1 F1
                    (Nat.lt_succ_self _) hA (xorDecode cs.flatten)
                  have hquiet1 : step inflate m1 = .stop m1 :=
                    run_none_quiet_aux (mu (extendM m (xorDecode c)) + 1)
                      (extendM m (xorDecode c)) m1 F1
                      (Nat.lt_succ_self _) hA
                  have herr1 : (feed inflate m1 cs.flatten).2.2 = none := by
                    rw [feed_eq_run]
                    rw [feed_eq_run, hsplit] at herr
                    have h22 := congrArg Prod.snd hext
                    simp only at h22
                    rw [h22] at herr
                    exact herr
                  have ihm := ih m1 hquiet1 herr1
                  constructor
                  · show (feedMany inflate m (c :: cs)).2.1 =
                      (feed inflate m ((c :: cs).flatten)).2.1
                    rw [feed_eq_run, hsplit]
                    have h21 := congrArg Prod.fst hext
                    simp only at h21
                    rw [h21]
                    simp only [feedMany, hfc]
                    rw [ihm.1, feed_eq_run]
                  · intro e he
                    simp only [feedMany, hfc] at he
                    simp only [List.mem_cons] at he
                    rcases he with rfl | he
                    · rfl
                    · exact ihm.2 e he

/-! ## Claim C3 -/

/-- Claim C3, amended: for a decoder fed from its initial state, chunked
feeding emits exactly the frames of the one-shot feed — provided the one-shot
feed raises no error (and then no chunked call raises either).  With an error
mid-stream the equivalence fails: the one-shot `feed` call aborts at the
raise and never processes the remaining bytes, while later `feed` calls of
the chunked sequence still process their data. -/
theorem claim_C3_chunk_invariance (inflate : Inflate)
    (chunks : List (List Nat))
    (h : (feed inflate initMachine chunks.flatten).2.2 = none) :
    (feedMany inflate initMachine chunks).2.1 =
      (feed inflate initMachine chunks.flatten).2.1 ∧
    ∀ e ∈ (feedMany inflate initMachine chunks).2.2, e = none :=
  feedMany_flatten chunks initMachine rfl h

/-- Evaluation form of `feed`: `runFuel` with sufficient fuel. -/
def feedFuel (inflate : Inflate) (m : Machine) (data : List Nat) :
    Machine × List ProtocolFrame × Option PyExc :=
  runFuel inflate (mu (extendM m (xorDecode data)) + 1)
    (extendM m (xorDecode data))

theorem feedFuel_eq (inflate : Inflate) (m : Machine) (data : List Nat) :
    feedFuel inflate m data = feed inflate m data := by
  unfold feedFuel
  rw [runFuel_eq_run inflate _ _ (Nat.lt_succ_self _)]
  rfl

/-- Evaluation form of `feedMany`. -/
def feedManyFuel (inflate : Inflate) (m : Machine) :
    List (List Nat) → Machine × List ProtocolFrame × List (Option PyExc)
  | [] => (m, [], [])
  | c :: cs =>
      let r := feedFuel inflate m c
      let rest := feedManyFuel inflate r.1 cs
      (rest.1, r.2.1 ++ rest.2.1, r.2.2 :: rest.2.2)

theorem feedManyFuel_eq (inflate : Inflate) :
    ∀ (chunks : List (List Nat)) (m : Machine),
      feedManyFuel inflate m chunks = feedMany inflate m chunks := by
  intro chunks
  induction chunks with
  | nil => intro m; rfl
  | cons c cs ih =>
      intro m
      simp only [feedManyFuel, feedMany, feedFuel_eq, ih]

/-- Oracle used in concrete evaluations whose streams never reach the zlib
path: inflation always succeeds with one byte. -/
def inflateOkA : Inflate := fun _ => .ok [65]

/-- Inflation oracle that always fails with `zlib.error` (what
`zlib.decompress` does on invalid or truncated data such as `b"\x78\x9c"`). -/
def inflateZlibErr : Inflate := fun _ => .error .zlibError

/-- An 80-byte block header that starts `/PF` but fails the header regex
(the filename class rejects `!`). -/
def headerBadCE : List Nat :=
  ("/PF".toList.map Char.toNat) ++ List.replicate 77 33

/-- A valid 80-byte V1 block header (no `/DL`): `/PFA /PN1 /PT1 /CS1 /FD1AM`,
space padding, `\r\n`. -/
def headerGoodCE : List Nat :=
  (("/PFA /PN1 /PT1 /CS1 /FD1AM").toList.map Char.toNat) ++
    List.replicate 52 32 ++ [13, 10]

/-- First chunk on the wire: sync marker plus the bad header (XOR-encoded). -/
def chunkCE1 : List Nat := xorDecode ([0, 0, 0, 0, 0, 0] ++ headerBadCE)

/-- Second chunk on the wire: the good V1 header plus its 1024-byte body. -/
def chunkCE2 : List Nat := xorDecode (headerGoodCE ++ List.replicate 1024 1)

set_option maxRecDepth 100000 in
/-- Claim C3, counterexample: feeding the stream in two chunks emits one
frame, feeding the same bytes in one chunk emits none — the bad header raises
mid-call, and the one-shot call never returns to the remaining bytes.  (The
stream is V1-only, so the zlib oracle is never consulted; the always-failing
oracle models real zlib on this garbage.) -/
theorem claim_C3_counterexample :
    (feedMany inflateZlibErr initMachine [chunkCE1, chunkCE2]).2.1.length = 1 ∧
    (feedMany inflateZlibErr initMachine [chunkCE1 ++ chunkCE2]).2.1.length = 0 := by
  rw [← feedManyFuel_eq, ← feedManyFuel_eq]
  decide

/-- Witness for the amended C3 at a concrete error-free input. -/
theorem claim_C3_witness :
    (feedMany inflateOkA initMachine [[1, 2], [3]]).2.1 =
      (feed inflateOkA initMachine ([[1, 2], [3]].flatten)).2.1 ∧
    ∀ e ∈ (feedMany inflateOkA initMachine [[1, 2], [3]]).2.2, e = none := by
  refine claim_C3_chunk_invariance inflateOkA [[1, 2], [3]] ?_
  rw [← feedFuel_eq]
  decide

/-! ## Claim C9 -/

/-- A concrete RESYNC machine with exactly six buffered bytes and no sync
run. -/
def resyncSixCE : Machine := ⟨.resync, [1, 0, 0, 0, 0, 0], none⟩

/-- Claim C9, counterexample: with exactly six buffered bytes and no sync
run, RESYNC consumes nothing and keeps all six bytes, not "all but the last
5" (which would leave five). -/
theorem claim_C9_counterexample :
    step inflateOkA resyncSixCE = .stop resyncSixCE ∧
    resyncSixCE.buffer.length = 6 := by
  constructor
  · rfl
  · rfl

/-- Claim C9, amended: the RESYNC state never raises; when the buffer holds a
run of six `0x00` bytes, everything up to and including the (first) run is
discarded and the state advances to START_FRAME; otherwise, when more than
six bytes are buffered the decoder keeps only the last five, and with six or
fewer bytes it consumes nothing — in either case returning without
progress. -/
theorem claim_C9_resync_behavior (inflate : Inflate) (buf : List Nat)
    (cur : Option QBTSegment) :
    (∀ (e : PyExc) (m' : Machine),
      step inflate ⟨.resync, buf, cur⟩ ≠ .fail e m') ∧
    (∀ p, findSync buf = some p →
      step inflate ⟨.resync, buf, cur⟩ =
        .more ⟨.startFrame, buf.drop (p + 6), cur⟩ []) ∧
    (findSync buf = none → 6 < buf.length →
      step inflate ⟨.resync, buf, cur⟩ =
        .stop ⟨.resync, buf.drop (buf.length - 5), cur⟩) ∧
    (findSync buf = none → buf.length ≤ 6 →
      step inflate ⟨.resync, buf, cur⟩ = .stop ⟨.resync, buf, cur⟩) := by
  refine ⟨?_, ?_, ?_, ?_⟩
  · intro e m' hcontra
    rcases hfs : findSync buf with _ | p
    · by_cases h6 : buf.length < 6
      · simp only [step, if_pos h6] at hcontra; cases hcontra
      · simp only [step, if_neg h6, hfs] at hcontra
        by_cases hgt : 6 < buf.length
        · rw [if_pos hgt] at hcontra; cases hcontra
        · rw [if_neg hgt] at hcontra; cases hcontra
    · by_cases h6 : buf.length < 6
      · simp only [step, if_pos h6] at hcontra; cases hcontra
      · simp only [step, if_neg h6, hfs] at hcontra; cases hcontra
  · intro p hfs
    have hb := findSync_bound hfs
    simp only [step]
    rw [if_neg (by omega)]
    simp only [hfs]
  · intro hfs hgt
    simp only [step]
    rw [if_neg (by omega)]
    simp only [hfs]
    rw [if_pos hgt]
  · intro hfs hle
    by_cases h6 : buf.length < 6
    · simp only [step, if_pos h6]
    · simp only [step, if_neg h6, hfs]
      rw [if_neg (by omega)]

/-- Witness for C9: sync found after one garbage byte, consumed together
with the marker. -/
theorem claim_C9_witness :
    step inflateOkA ⟨.resync, [7, 0, 0, 0, 0, 0, 0, 9], none⟩ =
      .more ⟨.startFrame, [9], none⟩ [] := by
  have h := (claim_C9_resync_behavior inflateOkA
    [7, 0, 0, 0, 0, 0, 0, 9] none).2.1 1 (by decide)
  exact h

/-! ## Claim C4 -/

/-- Frames emitted by `_process_server_list` are never data blocks. -/
theorem serverFrames_no_dataBlock (contentBytes : List Nat) :
    ∀ f ∈ serverFrames contentBytes, ∀ (c : List Nat) (seg : QBTSegment),
      f ≠ ProtocolFrame.dataBlock c seg := by
  intro f hf c seg
  unfold serverFrames at hf
  cases hx : from_server_list_frame (decodeAsciiReplace contentBytes) with
  | none => simp only [hx] at hf; simp at hf
  | some sl =>
      simp only [hx] at hf
      by_cases hall : contentBytes.all (fun b => b < 128)
      · rw [if_pos hall] at hf
        simp only [List.mem_singleton] at hf
        subst hf
        intro hcontra
        cases hcontra
      · rw [if_neg hall] at hf
        simp at hf

/-- Every data-block frame a single step emits satisfies the block-number
bounds: VALIDATE drops out-of-range block numbers before emitting. -/
theorem step_dataBlock_bounds {inflate : Inflate} {m m' : Machine}
    {fs : List ProtocolFrame} (h : step inflate m = .more m' fs) :
    ∀ f ∈ fs, ∀ (c : List Nat) (seg : QBTSegment),
      f = ProtocolFrame.dataBlock c seg →
      1 ≤ seg.block_number ∧ seg.block_number ≤ seg.total_blocks := by
  obtain ⟨st, buf, cur⟩ := m
  cases st
  case resync =>
      intro f hf c seg hfe
      exfalso
      simp only [step] at h
      by_cases h6 : buf.length < 6
      · rw [if_pos h6] at h; cases h
      · rw [if_neg h6] at h
        cases hfs : findSync buf with
        | some p => rw [hfs] at h; cases h; simp at hf
        | none =>
            rw [hfs] at h
            by_cases hgt : 6 < buf.length
            · rw [if_pos hgt] at h; cases h
            · rw [if_neg hgt] at h; cases h
  case startFrame =>
      intro f hf c seg hfe
      exfalso
      simp only [step] at h
      by_cases he : (buf.dropWhile (fun b => b == 0)).isEmpty
      · rw [if_pos he] at h; cases h
      · rw [if_neg he] at h; cases h; simp at hf
  case frameType =>
      intro f hf c seg hfe
      exfalso
      simp only [step] at h
      by_cases h10 : buf.length < 10
      · rw [if_pos h10] at h; cases h
      · rw [if_neg h10] at h
        by_cases hdb0 : isDataBlockHeader (buf.take (min 20 buf.length))
        · rw [if_pos hdb0] at h; cases h; simp at hf
        · rw [if_neg hdb0] at h
          by_cases hsl0 : isServerListHeader (buf.take (min 20 buf.length))
          · rw [if_pos hsl0] at h; cases h; simp at hf
          · rw [if_neg hsl0] at h; cases h; simp at hf
  case serverList =>
      intro f hf c seg hfe
      simp only [step] at h
      cases hfn : findNull buf with
      | some i =>
          rw [hfn] at h
          cases h
          exact absurd hfe (serverFrames_no_dataBlock _ f hf c seg)
      | none =>
          rw [hfn] at h
          rw [subIdx_satEnd_of_no_null hfn] at h
          cases h
  case blockHeader =>
      intro f hf c seg hfe
      exfalso
      simp only [step] at h
      by_cases h80 : buf.length < 80
      · rw [if_pos h80] at h; cases h
      · rw [if_neg h80] at h
        by_cases hall : (buf.take 80).all (fun b => b < 128)
        · rw [if_pos hall] at h
          cases hph : parseHeader ((buf.take 80).map Char.ofNat) with
          | none => simp only [hph] at h; cases h
          | some g =>
              simp only [hph] at h
              cases hmk : mkSegmentFromHeader g ((buf.take 80).map Char.ofNat) with
              | error e => simp only [hmk] at h; cases h
              | ok sg => simp only [hmk] at h; cases h; simp at hf
        · rw [if_neg hall] at h; cases h
  case blockBody =>
      intro f hf c seg hfe
      exfalso
      cases cur with
      | none => simp only [step] at h; cases h
      | some sg =>
          simp only [step] at h
          by_cases hlen : buf.length < sg.length
          · rw [if_pos hlen] at h; cases h
          · rw [if_neg hlen] at h
            by_cases hv : sg.version == 2
            · rw [if_pos hv] at h
              cases hdz : decompress_zlib inflate (buf.take sg.length) 2 with
              | error e => rw [hdz] at h; cases h
              | ok data => rw [hdz] at h; cases h; simp at hf
            · rw [if_neg hv] at h; cases h; simp at hf
  case validate =>
      intro f hf c seg hfe
      cases cur with
      | none => simp only [step] at h; cases h
      | some sg =>
          simp only [step] at h
          by_cases h1 : sg.total_blocks ≤ 0 ∨ sg.block_number ≤ 0
          · rw [if_pos h1] at h; cases h; simp at hf
          · rw [if_neg h1] at h
            by_cases h2 : sg.total_blocks < sg.block_number
            · rw [if_pos h2] at h; cases h; simp at hf
            · rw [if_neg h2] at h
              by_cases h3 : sg.filename = "FILLFILE.TXT".toList
              · rw [if_pos h3] at h; cases h; simp at hf
              · rw [if_neg h3] at h
                cases hvc : validateSegmentChecksum inflate sg with
                | error e => rw [hvc] at h; cases h
                | ok pr =>
                    rw [hvc] at h
                    cases h
                    simp only [List.mem_singleton] at hf
                    subst hf
                    have hpr : pr.2.block_number = sg.block_number ∧
                        pr.2.total_blocks = sg.total_blocks := by
                      clear hfe
                      unfold validateSegmentChecksum at hvc
                      by_cases hv1 : sg.version == 1
                      · rw [if_pos hv1] at hvc; cases hvc; exact ⟨rfl, rfl⟩
                      · rw [if_neg hv1] at hvc
                        by_cases hv2 : sg.version == 2
                        · rw [if_pos hv2] at hvc
                          unfold validate_v2_checksum at hvc
                          by_cases hcmp : is_compressed_data sg.content
                          · rw [if_pos hcmp] at hvc
                            unfold validate_compressed_data at hvc
                            cases hi : inflate sg.content with
                            | ok un =>
                                simp only [hi] at hvc
                                by_cases hvf : verify_checksum un sg.checksum
                                · rw [if_pos hvf] at hvc
                                  cases hvc
                                  exact ⟨rfl, rfl⟩
                                · rw [if_neg hvf] at hvc
                                  cases hvc
                                  exact ⟨rfl, rfl⟩
                            | error e =>
                                simp only [hi] at hvc
                                cases e <;> simp only at hvc <;>
                                  first
                                  | (cases hvc; exact ⟨rfl, rfl⟩)
                                  | cases hvc
                          · rw [if_neg hcmp] at hvc
                            cases hvc
                            exact ⟨rfl, rfl⟩
                        · rw [if_neg hv2] at hvc
                          cases hvc
                          exact ⟨rfl, rfl⟩
                    by_cases ht : endsWithTxtWmo pr.2.filename
                    · simp only [if_pos ht] at hfe
                      cases hfe
                      push_neg at h1
                      show 1 ≤ pr.2.block_number ∧
                        pr.2.block_number ≤ pr.2.total_blocks
                      rw [hpr.1, hpr.2]
                      omega
                    · simp only [if_neg ht] at hfe
                      cases hfe
                      push_neg at h1
                      show 1 ≤ pr.2.block_number ∧
                        pr.2.block_number ≤ pr.2.total_blocks
                      rw [hpr.1, hpr.2]
                      omega

/-- Bounds hold for every data-block frame of a whole run. -/
theorem run_dataBlock_bounds {inflate : Inflate} :
    ∀ (n : Nat) (m : Machine), mu m < n →
      ∀ f ∈ (run inflate m).2.1, ∀ (c : List Nat) (seg : QBTSegment),
        f = ProtocolFrame.dataBlock c seg →
        1 ≤ seg.block_number ∧ seg.block_number ≤ seg.total_blocks := by
  intro n
  induction n with
  | zero => intro m hlt; omega
  | succ k ih =>
      intro m hlt f hf c seg hfe
      cases hs : step inflate m with
      | stop m2 => rw [run_stop_elim hs] at hf; simp at hf
      | fail e m2 => rw [run_fail_elim hs] at hf; simp at hf
      | more m2 fs =>
          rw [run_more_elim hs] at hf
          simp only [List.mem_append] at hf
          rcases hf with hf | hf
          · exact step_dataBlock_bounds hs f hf c seg hfe
          · have hmulf := step_mu hs
            exact ih m2 (by omega) f hf c seg hfe

/-- Claim C4: every segment emitted inside a `DataBlockFrame` satisfies
`1 ≤ block_number ≤ total_blocks`; a segment with `block_number = 0`,
`total_blocks ≤ 0`, or `block_number > total_blocks` is dropped by VALIDATE
— no frame is emitted for it and processing continues at START_FRAME. -/
theorem claim_C4_block_number_bounds (inflate : Inflate) :
    (∀ (m : Machine), ∀ f ∈ (run inflate m).2.1,
      ∀ (c : List Nat) (seg : QBTSegment),
        f = ProtocolFrame.dataBlock c seg →
        1 ≤ seg.block_number ∧ seg.block_number ≤ seg.total_blocks) ∧
    (∀ (seg : QBTSegment) (buf : List Nat),
      (seg.block_number = 0 ∨ seg.total_blocks ≤ 0 ∨
        seg.total_blocks < seg.block_number) →
      step inflate ⟨.validate, buf, some seg⟩ =
        .more ⟨.startFrame, buf, none⟩ []) := by
  constructor
  · intro m
    exact run_dataBlock_bounds (mu m + 1) m (Nat.lt_succ_self _)
  · intro seg buf hbad
    simp only [step]
    by_cases h1 : seg.total_blocks ≤ 0 ∨ seg.block_number ≤ 0
    · rw [if_pos h1]
    · rw [if_neg h1]
      have h2 : seg.total_blocks < seg.block_number := by
        push_neg at h1
        rcases hbad with hb | hb | hb
        · omega
        · omega
        · exact hb
      rw [if_pos h2]

/-- A segment VALIDATE will emit: one block of one, version 1. -/
def segBoundsW : QBTSegment :=
  { filename := ['A'], block_number := 1, total_blocks := 1, content := [66],
    checksum := 0, length := 1024, version := 1, fd := [], header := [] }

/-- Witness for C4 at a concrete emitted frame. -/
theorem claim_C4_witness :
    1 ≤ segBoundsW.block_number ∧
      segBoundsW.block_number ≤ segBoundsW.total_blocks := by
  have hmem : ProtocolFrame.dataBlock segBoundsW.content segBoundsW ∈
      (run inflateOkA ⟨.validate, [], some segBoundsW⟩).2.1 := by
    rw [← runFuel_eq_run inflateOkA
      (mu ⟨.validate, [], some segBoundsW⟩ + 1) _ (Nat.lt_succ_self _)]
    decide
  exact (claim_C4_block_number_bounds inflateOkA).1
    ⟨.validate, [], some segBoundsW⟩
    (ProtocolFrame.dataBlock segBoundsW.content segBoundsW) hmem
    segBoundsW.content segBoundsW rfl

/-! ## Claim C7 -/

/-- Claim C7: a segment that passes the block-number and `FILLFILE.TXT`
checks, and whose checksum validation completes with verdict `v` (valid or
not), is emitted as a `DataBlockFrame` regardless of `v`; its content is
trailing-trimmed over `{0x00, space, TAB, CR, LF}` if and only if the
filename uppercases to a `.TXT` or `.WMO` suffix. -/
theorem claim_C7_emit_regardless (inflate : Inflate) (seg : QBTSegment)
    (buf : List Nat) (v : Bool) (seg1 : QBTSegment)
    (h1 : ¬(seg.total_blocks ≤ 0 ∨ seg.block_number ≤ 0))
    (h2 : ¬(seg.total_blocks < seg.block_number))
    (h3 : seg.filename ≠ "FILLFILE.TXT".toList)
    (hvc : validateSegmentChecksum inflate seg = .ok (v, seg1)) :
    step inflate ⟨.validate, buf, some seg⟩ =
      .more ⟨.startFrame, buf, none⟩
        [ProtocolFrame.dataBlock
          (if endsWithTxtWmo seg1.filename then rstripPad seg1.content
           else seg1.content)
          (if endsWithTxtWmo seg1.filename then
            { seg1 with content := rstripPad seg1.content }
           else seg1)] := by
  simp only [step]
  rw [if_neg h1, if_neg h2, if_neg h3]
  simp only [hvc]
  by_cases ht : endsWithTxtWmo seg1.filename
  · simp only [if_pos ht]
  · simp only [if_neg ht]

/-- A text segment whose checksum does not match. -/
def segTrimW : QBTSegment :=
  { filename := "A.TXT".toList, block_number := 1, total_blocks := 1,
    content := [66, 0, 32], checksum := 7, length := 1024, version := 1,
    fd := [], header := [] }

/-- Witness for C7: the frame is emitted although the checksum fails
(sum 98 ≠ 7), with the trailing null and space stripped. -/
theorem claim_C7_witness :
    step inflateOkA ⟨.validate, [], some segTrimW⟩ =
      .more ⟨.startFrame, [], none⟩
        [ProtocolFrame.dataBlock
          (if endsWithTxtWmo segTrimW.filename then rstripPad segTrimW.content
           else segTrimW.content)
          (if endsWithTxtWmo segTrimW.filename then
            { segTrimW with content := rstripPad segTrimW.content }
           else segTrimW)] :=
  claim_C7_emit_regardless inflateOkA segTrimW [] false segTrimW
    (by decide) (by decide) (by decide) rfl

/-! ## Claim C6

The client side (`byteblaster/client.py`): `on_protocol_error` calls
`Watchdog.on_exception` (`_exception_count += 1`) and `ProtocolDecoder.reset`
(state RESYNC, buffer cleared, in-progress segment dropped). -/

/-- The client state the error path touches. -/
structure ClientState where
  watchdog_exception_count : Nat
  decoder : Machine
deriving DecidableEq, Repr

/-- `Watchdog.on_exception`. -/
def watchdog_on_exception (count : Nat) : Nat := count + 1

/-- `ProtocolDecoder.reset`. -/
def decoder_reset (_m : Machine) : Machine := ⟨.resync, [], none⟩

/-- `ByteBlasterClient.on_protocol_error`. -/
def on_protocol_error (c : ClientState) : ClientState :=
  { watchdog_exception_count :=
      watchdog_on_exception c.watchdog_exception_count,
    decoder := decoder_reset c.decoder }

/-- Claim C6: an 80-byte header that fails the header regex — or whose bytes
cannot re-encode as ASCII — raises `ValueError`; so does a matched header
with a `/DL` value outside `1..1024`; and `on_protocol_error` increments the
watchdog exception count by one and resets the decoder to RESYNC with an
empty buffer and no in-progress segment. -/
theorem claim_C6_header_failure (inflate : Inflate) :
    (∀ (h rest : List Nat) (cur : Option QBTSegment), h.length = 80 →
      h.all (fun b => b < 128) →
      parseHeader (h.map Char.ofNat) = none →
      step inflate ⟨.blockHeader, h ++ rest, cur⟩ =
        .fail .valueError ⟨.blockHeader, rest, cur⟩) ∧
    (∀ (h rest : List Nat) (cur : Option QBTSegment) (g : HeaderGroups)
        (dl : Nat), h.length = 80 →
      h.all (fun b => b < 128) →
      parseHeader (h.map Char.ofNat) = some g →
      g.dl = some dl → dl = 0 ∨ 1024 < dl →
      step inflate ⟨.blockHeader, h ++ rest, cur⟩ =
        .fail .valueError ⟨.blockHeader, rest, cur⟩) ∧
    (∀ c : ClientState,
      (on_protocol_error c).watchdog_exception_count =
        c.watchdog_exception_count + 1 ∧
      (on_protocol_error c).decoder = ⟨.resync, [], none⟩) := by
  have hbuf : ∀ (h rest : List Nat), h.length = 80 →
      (h ++ rest).take 80 = h ∧ (h ++ rest).drop 80 = rest := by
    intro h rest hlen
    constructor
    · rw [take_append_of_le rest (by omega), ← hlen, List.take_length]
    · rw [drop_append_of_le rest (by omega), ← hlen, List.drop_length,
        List.nil_append]
  refine ⟨?_, ?_, ?_⟩
  · intro h rest cur hlen hall hph
    obtain ⟨htk, hdr⟩ := hbuf h rest hlen
    simp only [step]
    rw [if_neg (by simp [List.length_append]; omega), htk, hdr, if_pos hall]
    simp only [hph]
  · intro h rest cur g dl hlen hall hph hdl hrange
    obtain ⟨htk, hdr⟩ := hbuf h rest hlen
    simp only [step]
    rw [if_neg (by simp [List.length_append]; omega), htk, hdr, if_pos hall]
    simp only [hph]
    have hmk : mkSegmentFromHeader g (h.map Char.ofNat) =
        .error .valueError := by
      unfold mkSegmentFromHeader
      rw [hdl]
      simp only [if_pos hrange]
    simp only [hmk]
  · intro c
    exact ⟨rfl, rfl⟩

/-- Witness for C6 at the concrete bad header. -/
theorem claim_C6_witness :
    step inflateOkA ⟨.blockHeader, headerBadCE ++ [], none⟩ =
      .fail .valueError ⟨.blockHeader, [], none⟩ :=
  (claim_C6_header_failure inflateOkA).1 headerBadCE [] none
    (by decide) (by decide) (by decide)

/-! ## Claim C5

`_validate_compressed_data` catches only `OSError` and `ValueError`; the
exception `zlib.decompress` actually raises on bad data is `zlib.error`, a
direct subclass of `Exception` (the repository's own test
`tests/utils/test_crypto.py::test_decompress_zlib_invalid_data` documents
that inflation failures are `zlib.error`).  So the documented fallback
("fall back to treating as uncompressed") is unreachable for real inflation
failures: the error escapes `_validate_segment`, no frame is emitted, and
the supervisor sees a protocol error. -/

/-- Claim C5, divergence theorem: for a V2 segment whose content looks
compressed, an inflation failure of class `zlib.error` propagates out of
checksum validation — the VALIDATE step raises instead of falling back to
checksumming the compressed bytes. -/
theorem claim_C5_zlib_error_escapes (inflate : Inflate) (seg : QBTSegment)
    (buf : List Nat)
    (hv : seg.version = 2)
    (hc : is_compressed_data seg.content = true)
    (hf : inflate seg.content = .error .zlibError)
    (h1 : ¬(seg.total_blocks ≤ 0 ∨ seg.block_number ≤ 0))
    (h2 : ¬(seg.total_blocks < seg.block_number))
    (h3 : seg.filename ≠ "FILLFILE.TXT".toList) :
    validateSegmentChecksum inflate seg = .error .zlibError ∧
    step inflate ⟨.validate, buf, some seg⟩ =
      .fail .zlibError ⟨.validate, buf, none⟩ := by
  have hvc : validateSegmentChecksum inflate seg = .error .zlibError := by
    unfold validateSegmentChecksum
    rw [if_neg (by simp [hv]), if_pos (by simp [hv])]
    unfold validate_v2_checksum
    rw [if_pos hc]
    unfold validate_compressed_data
    simp only [hf]
  refine ⟨hvc, ?_⟩
  simp only [step]
  rw [if_neg h1, if_neg h2, if_neg h3]
  simp only [hvc]

/-- The failing input: a V2 segment whose content is the two zlib header
bytes `0x78 0x9C` of a truncated stream. -/
def segZlibCE : QBTSegment :=
  { filename := ['A'], block_number := 1, total_blocks := 1,
    content := [120, 156], checksum := 0, length := 2, version := 2,
    fd := [], header := [] }

/-- Witness evaluating the code at the failing input: the `zlib.error`
escapes validation. -/
theorem claim_C5_witness :
    validateSegmentChecksum inflateZlibErr segZlibCE = .error .zlibError ∧
    step inflateZlibErr ⟨.validate, [], some segZlibCE⟩ =
      .fail .zlibError ⟨.validate, [], none⟩ :=
  claim_C5_zlib_error_escapes inflateZlibErr segZlibCE [] rfl (by decide) rfl
    (by decide) (by decide) (by decide)
